import Mathlib

/-!
Verification of the hwtSimApi / pycocotb discrete-event HDL co-simulation core.

The definitions below are a shallow embedding of:
  * `src/pycocotb/simCalendar.py` (`SimTimeSlot`, `SimCalendar`),
  * `src/pycocotb/hdlSimulator.py` (`HdlSimulator.run`, `_run_process`,
    `_eval_rtl_events`, `_run_event_list`, `_schedule_proc_now`, `_schedule_proc`),
  * `src/hwtSimApi/agents/clk.py` (`ClockAgent.driver`, `ClockAgent.monitor`),
together with spec-modelled definitions for parts of the repository that are
not under `src/` (the trigger classes, the `DONE` sentinel value, the
`CallbackLoop` wrapper and the RTL back-end contract of the specification).

Python generators are embedded as a deep datatype of processes (`Proc`),
simulated time is a `Nat`, machine integers do not overflow anywhere in the
modelled code, and fallible operations return an explicit outcome type
carrying the raised error.  All loops of the Python code are modelled with
explicit fuel; fuel exhaustion is a distinguished outcome that corresponds to
the Python loop still running.
-/

/-- Signal values: `some n` is a defined integer value, `none` is the
undefined (x) state for which Python `int(v)` raises `ValueError`
(`src/hwtSimApi/agents/clk.py` lines 56-60). -/
abbrev SigVal := Option Int

/-! ## ClockAgent monitor state (`src/hwtSimApi/agents/clk.py` lines 47-80) -/

/-- Recording state of `ClockAgent`: the fields `self.last` and `self.data`
initialised by `getMonitors` (lines 48-49).  The time component is an `Int`
because the initial `last` is the Python tuple `(-1, None)`. -/
structure ClkMon where
  last : Int × SigVal
  data : List (Int × SigVal)
deriving DecidableEq, Repr

/-- `ClockAgent.getMonitors` recording-state initialisation
(`src/hwtSimApi/agents/clk.py` lines 47-49): `self.last = (-1, None)`,
`self.data = []`. -/
def monInit : ClkMon := ⟨(-1, none), []⟩

/-- One invocation of the body of `ClockAgent.monitor` after its
`WaitCombRead` yield (`src/hwtSimApi/agents/clk.py` lines 56-80), as a pure
function of the recording state, the current simulation time `now` and the
value `v` read from the signal (already converted: undefined reads give
`none`).  The Python comparison `last[1] is not v` is identity on the values
`0`, `1` and `None` that a clock signal produces, where identity coincides
with equality, so it is embedded as `≠`. -/
def monStep (m : ClkMon) (now : Int) (v : SigVal) : ClkMon :=
  let nxt : Int × SigVal := (now, v)
  if m.last.1 = now then
    if v ≠ m.last.2 then
      let lst : Int × SigVal := (now, v)
      let d := if m.data.isEmpty then [lst] else m.data.dropLast ++ [lst]
      { last := nxt, data := d }
    else
      m
  else
    { last := nxt, data := m.data ++ [nxt] }

/-- Fold a sequence of `(now, value)` observations through the monitor,
starting from the state that `getMonitors` sets up. -/
def monRun (obs : List (Int × SigVal)) : ClkMon :=
  obs.foldl (fun m o => monStep m o.1 o.2) monInit

/-- Times recorded in the `data` list. -/
def monTimes (m : ClkMon) : List Int := m.data.map Prod.fst

/-- Invariant tying the monitor state together: recorded times are strictly
increasing, every recorded time is at most `last`'s time, and when `data` is
non-empty its final entry's time is exactly `last`'s time. -/
def MonInv (m : ClkMon) : Prop :=
  List.Chain' (· < ·) (monTimes m) ∧
  (∀ x ∈ m.data, x.1 ≤ m.last.1) ∧
  (m.data ≠ [] → (m.data.getLast?).map Prod.fst = some m.last.1)

theorem monInit_inv : MonInv monInit := by
  refine ⟨by simp [monTimes, monInit], by simp [monInit], by simp [monInit]⟩

/-- Unfolding of `monStep` on a same-instant observation with a changed
value and non-empty data (the in-place overwrite branch). -/
theorem monStep_overwrite (m : ClkMon) (now : Int) (v : SigVal)
    (h1 : m.last.1 = now) (h2 : v ≠ m.last.2) (hd : ¬ m.data.isEmpty) :
    monStep m now v = ⟨(now, v), m.data.dropLast ++ [(now, v)]⟩ := by
  unfold monStep
  rw [if_pos h1, if_pos h2]
  simp only [hd, if_neg, Bool.false_eq_true, ite_false]

/-- Unfolding of `monStep` on a same-instant observation with a changed
value and empty data. -/
theorem monStep_overwrite_empty (m : ClkMon) (now : Int) (v : SigVal)
    (h1 : m.last.1 = now) (h2 : v ≠ m.last.2) (hd : m.data.isEmpty) :
    monStep m now v = ⟨(now, v), [(now, v)]⟩ := by
  unfold monStep
  rw [if_pos h1, if_pos h2]
  simp only [hd, ite_true]

/-- Unfolding of `monStep` on a same-instant observation of an unchanged
value: nothing is recorded. -/
theorem monStep_nochange (m : ClkMon) (now : Int) (v : SigVal)
    (h1 : m.last.1 = now) (h2 : v = m.last.2) : monStep m now v = m := by
  unfold monStep
  rw [if_pos h1, if_neg (by simpa using h2)]

/-- Unfolding of `monStep` on an observation at a new instant: the tuple is
appended. -/
theorem monStep_append (m : ClkMon) (now : Int) (v : SigVal)
    (h1 : m.last.1 ≠ now) :
    monStep m now v = ⟨(now, v), m.data ++ [(now, v)]⟩ := by
  unfold monStep
  rw [if_neg h1]

theorem monStep_inv (m : ClkMon) (now : Int) (v : SigVal)
    (hm : MonInv m) (hnow : m.last.1 ≤ now) : MonInv (monStep m now v) := by
  obtain ⟨hchain, hle, hlast⟩ := hm
  by_cases h1 : m.last.1 = now
  · by_cases h2 : v ≠ m.last.2
    · by_cases hd : m.data.isEmpty
      · rw [monStep_overwrite_empty m now v h1 h2 hd]
        refine ⟨by simp [monTimes], ?_, by simp⟩
        intro x hx
        simp only [List.mem_singleton] at hx
        subst hx; exact le_refl _
      · have hdne : m.data ≠ [] := by
          intro hc; rw [hc] at hd; simp at hd
        rw [monStep_overwrite m now v h1 h2 hd]
        refine ⟨?_, ?_, ?_⟩
        · simp only [monTimes, List.map_append]
          have hsplit : m.data = m.data.dropLast ++ [m.data.getLast hdne] :=
            (List.dropLast_append_getLast hdne).symm
          have hchain2 : List.Chain' (· < ·)
              ((m.data.dropLast ++ [m.data.getLast hdne]).map Prod.fst) := by
            rw [← hsplit]; exact hchain
          rw [List.map_append] at hchain2
          have hgl : (m.data.getLast hdne).1 = m.last.1 := by
            have := hlast hdne
            rw [List.getLast?_eq_getLast _ hdne] at this
            simp only [Option.map_some'] at this
            exact Option.some_injective _ this
          simpa [hgl, h1] using hchain2
        · intro x hx
          rcases List.mem_append.1 hx with hx1 | hx2
          · have hxm : x ∈ m.data := List.dropLast_subset _ hx1
            calc x.1 ≤ m.last.1 := hle x hxm
              _ = now := h1
          · simp only [List.mem_singleton] at hx2
            subst hx2; exact le_refl _
        · intro _
          simp
    · push_neg at h2
      rw [monStep_nochange m now v h1 h2]
      exact ⟨hchain, hle, hlast⟩
  · rw [monStep_append m now v h1]
    have hlt : m.last.1 < now := lt_of_le_of_ne hnow h1
    refine ⟨?_, ?_, ?_⟩
    · simp only [monTimes, List.map_append]
      rw [List.chain'_append]
      refine ⟨hchain, by simp, ?_⟩
      intro x hx y hy
      simp only [List.map_cons, List.map_nil, List.head?_cons,
        Option.mem_def, Option.some_inj] at hy
      subst hy
      rcases List.mem_getLast?_eq_getLast hx with ⟨hne2, hxeq⟩
      subst hxeq
      have hmem := List.getLast_mem hne2
      rcases List.mem_map.1 hmem with ⟨p, hp, hpx⟩
      rw [← hpx]
      exact lt_of_le_of_lt (hle p hp) hlt
    · intro x hx
      rcases List.mem_append.1 hx with hx1 | hx2
      · exact le_of_lt (lt_of_le_of_lt (hle x hx1) hlt)
      · simp only [List.mem_singleton] at hx2
        subst hx2; exact le_refl _
    · intro _
      simp

/-- Auxiliary: folding monotone observations from a state whose invariant
holds and whose `last` time is below every observation keeps the invariant. -/
theorem monFold_inv (obs : List (Int × SigVal)) :
    ∀ m : ClkMon, MonInv m →
      List.Chain' (· ≤ ·) (obs.map Prod.fst) →
      (∀ t ∈ obs.map Prod.fst, m.last.1 ≤ t) →
      MonInv (obs.foldl (fun m o => monStep m o.1 o.2) m) := by
  induction obs with
  | nil => intro m hm _ _; simpa using hm
  | cons o rest ih =>
    intro m hm hchain hge
    have ho : m.last.1 ≤ o.1 := hge o.1 (by simp)
    have hm' : MonInv (monStep m o.1 o.2) := monStep_inv m o.1 o.2 hm ho
    simp only [List.foldl_cons]
    apply ih _ hm'
    · simp only [List.map_cons] at hchain
      exact hchain.tail
    · intro t ht
      have hlast' : (monStep m o.1 o.2).last.1 = o.1 ∨
          (monStep m o.1 o.2).last.1 = m.last.1 := by
        unfold monStep
        by_cases h1 : m.last.1 = o.1
        · by_cases h2 : o.2 ≠ m.last.2
          · left; simp [h1, h2]
          · right; simp [h1, h2]
        · left; simp [h1]
      have hrest : o.1 ≤ t := by
        simp only [List.map_cons] at hchain
        rcases List.chain'_cons'.1 hchain with ⟨hhd, htl⟩
        -- every element of rest.map fst is ≥ o.1 by transitivity of the chain
        have : ∀ u ∈ rest.map Prod.fst, o.1 ≤ u := by
          have hp : List.Pairwise (· ≤ ·) (o.1 :: rest.map Prod.fst) :=
            List.chain'_iff_pairwise.1 hchain
          intro u hu
          exact (List.pairwise_cons.1 hp).1 u hu
        exact this t ht
      rcases hlast' with h | h
      · rw [h]; exact hrest
      · rw [h]; exact le_trans (hge o.1 (by simp)) hrest

/-- C10: for every sequence of monitor invocations with non-decreasing times
(which is how the simulator invokes the monitor, since `now` never
decreases), the `data` list never contains two tuples with the same time
(its recorded times are strictly increasing); a second value change at the
same instant overwrites the last recorded tuple in place (same length, new
final entry); re-observing an unchanged value at the same instant records
nothing (the state is untouched). -/
theorem clk_monitor_no_duplicate_times :
    (∀ obs : List (Int × SigVal),
      List.Chain' (· ≤ ·) (obs.map Prod.fst) →
      (∀ t ∈ obs.map Prod.fst, (-1 : Int) ≤ t) →
      List.Chain' (· < ·) (monTimes (monRun obs))) ∧
    (∀ (m : ClkMon) (now : Int) (v : SigVal),
      m.last.1 = now → v ≠ m.last.2 → m.data ≠ [] →
      (monStep m now v).data.length = m.data.length ∧
      (monStep m now v).data.getLast? = some (now, v)) ∧
    (∀ (m : ClkMon) (now : Int) (v : SigVal),
      m.last.1 = now → v = m.last.2 → monStep m now v = m) := by
  refine ⟨?_, ?_, ?_⟩
  · intro obs hchain hge
    have h := monFold_inv obs monInit monInit_inv hchain
      (by intro t ht; simpa [monInit] using hge t ht)
    exact h.1
  · intro m now v h1 h2 hd
    have hne : ¬ m.data.isEmpty := by
      intro hc; exact hd (List.isEmpty_iff.1 hc)
    rw [monStep_overwrite m now v h1 h2 hne]
    constructor
    · simp only [List.length_append, List.length_dropLast,
        List.length_singleton]
      have : 1 ≤ m.data.length := List.length_pos.2 hd
      omega
    · simp
  · intro m now v h1 h2
    exact monStep_nochange m now v h1 h2

/-- Witness for C10: a concrete observation sequence exercising all three
conjuncts. -/
theorem clk_monitor_no_duplicate_times_witness :
    List.Chain' (· < ·)
      (monTimes (monRun [((0 : Int), some 0), (0, some 1), (5, some 1)])) ∧
    (monStep ⟨(0, some 0), [(0, some 0)]⟩ 0 (some 1)).data.length = 1 ∧
    (monStep ⟨(0, some 0), [(0, some 0)]⟩ 0 (some 1)).data.getLast? =
      some (0, some 1) ∧
    monStep ⟨(0, some 0), [(0, some 0)]⟩ 0 (some 0) = ⟨(0, some 0), [(0, some 0)]⟩ := by
  have h1 := clk_monitor_no_duplicate_times.1
    [((0 : Int), some 0), (0, some 1), (5, some 1)]
    (by norm_num [List.chain'_cons]) (by norm_num)
  have h2 := clk_monitor_no_duplicate_times.2.1
    ⟨(0, some 0), [(0, some 0)]⟩ 0 (some 1) rfl (by decide) (by decide)
  have h3 := clk_monitor_no_duplicate_times.2.2
    ⟨(0, some 0), [(0, some 0)]⟩ 0 (some 0) rfl rfl
  exact ⟨h1, h2.1, h2.2, h3⟩

/-! ## Core scheduler data model

`src/pycocotb/simCalendar.py` and `src/pycocotb/hdlSimulator.py`.
-/

/-- The six phase slots of `SimTimeSlot`
(`src/pycocotb/simCalendar.py` lines 23-29). -/
inductive SimPhase
  | timeslotBegin
  | writeOnly
  | combRead
  | combStable
  | memStable
  | timeslotEnd
deriving DecidableEq, Repr

/-- Triggers that a process can yield.  The trigger classes live in the
`triggers` module which is not under `src/`; their payloads follow the spec
table of section 3.  `timer d` resumes at `now + d`; the four wait triggers
resume in the named phase of the current instant; `waitEvent eid` appends
the process to the waiter list of the event `eid`. -/
inductive Trig
  | timer (d : Nat)
  | waitWriteOnly
  | waitCombRead
  | waitCombStable
  | waitTimeslotEnd
  | waitEvent (eid : Nat)
deriving DecidableEq, Repr

/-- One non-suspending step of a process body, between two yields of a
Python generator. -/
inductive Atom
  /-- Yield a trigger (an `Action` or `Event` instance in the source). -/
  | yieldT (t : Trig)
  /-- `sig.write(v)` on a top-level signal: plain call, no suspension. -/
  | writeSig (sig : Nat) (v : SigVal)
  /-- Instrumentation only: append a tag to the run trace so that the
  resume order of processes is observable. -/
  | logResume (tag : Nat)
  /-- The body of `ClockAgent.monitor` after its `WaitCombRead` yield
  (`src/hwtSimApi/agents/clk.py` lines 56-80): read the signal, update the
  agent's `last` and `data` fields. -/
  | monitorStep (agent : Nat) (sig : Nat)
  /-- Modelled from the spec: the `CallbackLoop` wrapper body (section 4.7;
  `process_utils` is not under `src/`): if the agent's enable predicate
  holds, spawn a fresh instance of the monitor process into the currently
  active phase-queue. -/
  | spawnMonitor (agent : Nat) (sig : Nat)
  /-- Modelled from the spec: `Event.fire` (section 4.4; the `triggers`
  module is not under `src/`), realised by enqueueing the event into the
  currently active phase-queue, which `_run_event_list` expands
  (`src/pycocotb/hdlSimulator.py` lines 155-157). -/
  | fireEvent (eid : Nat)
  /-- Modelled from the spec: the body of `raise_StopSimulation` (the
  `triggers` module is not under `src/`): raise `StopSimumulation`. -/
  | raiseStop
  /-- Yield a value that is none of the recognised kinds; carries the
  value, mirroring `raise ValueError(ev)`
  (`src/pycocotb/hdlSimulator.py` line 128). -/
  | badYield (v : Nat)
deriving DecidableEq, Repr

/-- A process: the remaining suspension of a Python generator.  `seqChild`
yields a child generator (the `isgenerator` branch of `_run_process`,
`src/pycocotb/hdlSimulator.py` lines 123-126).  `clkLoop` is the infinite
`while True` tail of `ClockAgent.driver`
(`src/hwtSimApi/agents/clk.py` lines 36-45). -/
inductive Proc
  | nil
  | seq (a : Atom) (k : Proc)
  | seqChild (child : Proc) (k : Proc)
  | clkLoop (period : Nat) (sig : Nat)
deriving DecidableEq, Repr

/-- An entry of a phase-queue: a process or an `Event` object
(`_schedule_proc_now` accepts `Action`, `Event` or a generator,
`src/pycocotb/hdlSimulator.py` line 268). -/
inductive SimItem
  | iproc (p : Proc)
  | ievent (eid : Nat)
deriving DecidableEq, Repr

/-- The value of one phase field of a `SimTimeSlot`: Python `None`
(`unalloc`), a list, or the `DONE` sentinel.  Modelled from the spec for
the sentinel itself: `DONE` is imported from `simCalendar` whose definition
of it is not under `src/`; the spec (section 3) requires it to be a
distinct value that is not the empty list. -/
inductive PQ
  | unalloc
  | queue (items : List SimItem)
  | done
deriving DecidableEq, Repr

/-- Python truthiness of a phase field, as used by
`while first_run or time_slot.write_only`
(`src/pycocotb/hdlSimulator.py` line 206): `None` and `[]` are falsy, a
non-empty list and the `DONE` sentinel are truthy. -/
def PQ.truthy : PQ → Bool
  | .unalloc => false
  | .queue l => !l.isEmpty
  | .done => true

/-- `SimTimeSlot` (`src/pycocotb/simCalendar.py` lines 23-29): six phase
fields, all initially `None`. -/
structure SimTimeSlot where
  timeslot_begin : PQ := .unalloc
  write_only : PQ := .unalloc
  comb_read : PQ := .unalloc
  comb_stable : PQ := .unalloc
  mem_stable : PQ := .unalloc
  timeslot_end : PQ := .unalloc
deriving DecidableEq, Repr

/-- Read the field of a slot named by a phase. -/
def SimTimeSlot.get (s : SimTimeSlot) : SimPhase → PQ
  | .timeslotBegin => s.timeslot_begin
  | .writeOnly => s.write_only
  | .combRead => s.comb_read
  | .combStable => s.comb_stable
  | .memStable => s.mem_stable
  | .timeslotEnd => s.timeslot_end

/-- Write the field of a slot named by a phase. -/
def SimTimeSlot.set (s : SimTimeSlot) : SimPhase → PQ → SimTimeSlot
  | .timeslotBegin, q => { s with timeslot_begin := q }
  | .writeOnly, q => { s with write_only := q }
  | .combRead, q => { s with comb_read := q }
  | .combStable, q => { s with comb_stable := q }
  | .memStable, q => { s with mem_stable := q }
  | .timeslotEnd, q => { s with timeslot_end := q }

/-- `SimCalendar` (`src/pycocotb/simCalendar.py` lines 33-43): a
`SortedDict` keyed by time, embedded as an association list sorted by
strictly increasing key. -/
abbrev SimCalendar := List (Nat × SimTimeSlot)

/-- `SimCalendar.push` = `SortedDict.__setitem__`: insert keeping the keys
sorted, replacing an existing entry with the same key. -/
def calPush (cal : SimCalendar) (t : Nat) (v : SimTimeSlot) : SimCalendar :=
  match cal with
  | [] => [(t, v)]
  | (k, w) :: rest =>
    if t < k then (t, v) :: (k, w) :: rest
    else if t = k then (t, v) :: rest
    else (k, w) :: calPush rest t v

/-- `SimCalendar.pop` = `SortedDict.popitem(0)`: remove and return the
entry with the smallest key; raises `KeyError` on an empty dict
(`src/pycocotb/simCalendar.py` lines 41-43). -/
def calPop (cal : SimCalendar) : Option ((Nat × SimTimeSlot) × SimCalendar) :=
  match cal with
  | [] => none
  | h :: rest => some (h, rest)

/-- `self._events[time]` lookup used by `_schedule_proc`
(`src/pycocotb/hdlSimulator.py` line 277). -/
def calLookup (cal : SimCalendar) (t : Nat) : Option SimTimeSlot :=
  match cal with
  | [] => none
  | (k, w) :: rest => if t = k then some w else calLookup rest t

/-- Return statuses of the RTL back-end's `eval()` (section 6 of the spec:
status is one of `COMB_UPDATE_DONE` and `END_OF_STEP`). -/
inductive RtlStatus
  | combUpdateDone
  | endOfStep
deriving DecidableEq, Repr

/-- Errors that can propagate out of the scheduler.  Each constructor
carries exactly the payload that the corresponding Python exception
carries. -/
inductive SimError
  /-- `StopSimumulation`, raised by the stop process, caught by `run`. -/
  | stopSim
  /-- `assert s == rtl_sim.COMB_UPDATE_DONE, (self.now, s)`
  (`src/pycocotb/hdlSimulator.py` line 211). -/
  | statusAssert (now : Nat) (s : RtlStatus)
  /-- `assert now >= self.now, (now, time_slot)`
  (`src/pycocotb/hdlSimulator.py` line 197). -/
  | nowAssert (t : Nat) (now : Nat)
  /-- `assert until >= self.now, (until, self.now)`
  (`src/pycocotb/hdlSimulator.py` line 171). -/
  | boundAssert (b : Nat) (now : Nat)
  /-- `KeyError` from `SortedDict.popitem(0)` on an empty calendar. -/
  | keyError
  /-- `raise ValueError(ev)` for an unrecognised yielded value
  (`src/pycocotb/hdlSimulator.py` line 128); the payload is the yielded
  value and nothing else. -/
  | valueError (v : Nat)
  /-- `AttributeError`: appending when `_current_event_list` is `None`;
  carries no simulation data. -/
  | attrErrorNone
  /-- `AttributeError`: appending to the `DONE` sentinel; carries no
  simulation data. -/
  | attrErrorDone
  /-- `TypeError`: iterating the `DONE` sentinel. -/
  | typeError
  /-- Modelled from the spec: `PhaseClosedError` raised by the wait
  triggers when their phase is already `DONE` (spec sections 3, 4.8; the
  `triggers` module is not under `src/`). -/
  | phaseClosed (now : Nat) (p : SimPhase) (it : SimItem)
deriving DecidableEq, Repr

/-- Observable trace of a run, used to state ordering properties. -/
inductive TraceEvent
  /-- An instant was entered by the main loop (after the monotonicity
  assertion) at this time. -/
  | instantStart (t : Nat)
  /-- A drain of the named phase-queue began (the queue was not `None`). -/
  | phaseDrain (t : Nat) (p : SimPhase)
  /-- `_run_process` was invoked at this time. -/
  | resume (t : Nat)
  /-- A process executed its `logResume` instrumentation atom. -/
  | plog (t : Nat) (tag : Nat)
  /-- The RTL back-end's `eval()` was invoked and returned this status. -/
  | evalCall (t : Nat) (s : RtlStatus)
  /-- The RTL back-end's `reset_eval()` was invoked. -/
  | resetEval (t : Nat)
  /-- A top-level signal was written. -/
  | sigWrite (t : Nat) (sig : Nat) (v : SigVal)
deriving DecidableEq, Repr

/-- Modelled from the spec: the RTL back-end (section 6 of the spec; the
concrete circuit simulator is an external collaborator, not under `src/`).
State: committed signal values, the snapshot against which `eval()` detects
changes, the registered change callbacks (the `CallbackLoop` wrappers),
`pending_event_list`, the `read_only_not_write_only` flag, a micro-step
counter deciding which status `eval()` reports, an optional fault-injection
script of statuses, and the mirrored `time`. -/
structure Rtl where
  sigVal : List (Nat × SigVal) := []
  sigSnap : List (Nat × SigVal) := []
  callbacks : List (Nat × Proc) := []
  pending : List Proc := []
  readOnly : Bool := false
  mode : Nat := 0
  script : List RtlStatus := []
  time : Nat := 0
deriving DecidableEq, Repr

/-- Current value of a signal (missing signals read as undefined). -/
def sigRead (l : List (Nat × SigVal)) (s : Nat) : SigVal :=
  match l with
  | [] => none
  | (k, v) :: rest => if s = k then v else sigRead rest s

/-- Store a signal value. -/
def sigStore (l : List (Nat × SigVal)) (s : Nat) (v : SigVal) :
    List (Nat × SigVal) :=
  match l with
  | [] => [(s, v)]
  | (k, w) :: rest =>
    if s = k then (s, v) :: rest else (k, w) :: sigStore rest s v

/-- Modelled from the spec: `eval()` of the back-end contract (section 6).
It advances the circuit one micro-step: callbacks registered on signals
whose committed value differs from the snapshot are appended to
`pending_event_list` and the snapshot is refreshed; the returned status is
taken from the fault-injection script when one is present, otherwise the
first micro-step of an instant reports `COMB_UPDATE_DONE`, the second
reports `COMB_UPDATE_DONE` and enters read-only mode, and later ones report
`END_OF_STEP`. -/
def Rtl.eval (r : Rtl) : Rtl × RtlStatus :=
  let trig := r.callbacks.filter fun c => sigRead r.sigVal c.1 ≠ sigRead r.sigSnap c.1
  let r1 := { r with pending := r.pending ++ trig.map Prod.snd,
                     sigSnap := r.sigVal }
  match r1.script with
  | s :: rest => ({ r1 with script := rest }, s)
  | [] =>
    match r1.mode with
    | 0 => ({ r1 with mode := 1 }, .combUpdateDone)
    | 1 => ({ r1 with mode := 2, readOnly := true }, .combUpdateDone)
    | _ => (r1, .endOfStep)

/-- Modelled from the spec: `reset_eval()` invalidates the cached
combinational result so the next `eval()` re-resolves (section 6). -/
def Rtl.resetEval (r : Rtl) : Rtl := { r with mode := 0 }

/-- Modelled from the spec: `set_write_only()` puts the back-end into
write-accept mode for the next instant (section 6). -/
def Rtl.setWriteOnly (r : Rtl) : Rtl := { r with mode := 0, readOnly := false }

/-- Per-agent state: the enable flag of `AgentBase`
(`src/hwtSimApi/agents/base.py` lines 29, 33-37) and the `ClockAgent`
recording state. -/
structure AgentSt where
  enabled : Bool := true
  mon : ClkMon := monInit
deriving DecidableEq, Repr

def agentRead (l : List (Nat × AgentSt)) (a : Nat) : Option AgentSt :=
  match l with
  | [] => none
  | (k, v) :: rest => if a = k then some v else agentRead rest a

def agentStore (l : List (Nat × AgentSt)) (a : Nat) (v : AgentSt) :
    List (Nat × AgentSt) :=
  match l with
  | [] => [(a, v)]
  | (k, w) :: rest =>
    if a = k then (a, v) :: rest else (k, w) :: agentStore rest a v

/-- The value of `self._current_event_list`: Python `None`, the `DONE`
sentinel, or an alias of the phase field of the current slot whose list
object it holds.  The alias form models Python object identity: while a
phase is draining, appends through `_current_event_list` and appends
through the slot field target the same list
(`src/pycocotb/hdlSimulator.py` lines 152, 213-215, 269). -/
inductive CurRef
  | cnone
  | cdone
  | cphase (p : SimPhase)
deriving DecidableEq, Repr

/-- Event waiter lists: modelled from the spec, section 4.4 (the `Event`
class of the `triggers` module is not under `src/`).  An `Event` is iterated
by `_run_event_list` (`src/pycocotb/hdlSimulator.py` lines 155-157), which
runs its waiters in arrival order. -/
abbrev EventTable := List (Nat × List Proc)

def evRead (l : EventTable) (e : Nat) : List Proc :=
  match l with
  | [] => []
  | (k, v) :: rest => if e = k then v else evRead rest e

def evStore (l : EventTable) (e : Nat) (v : List Proc) : EventTable :=
  match l with
  | [] => [(e, v)]
  | (k, w) :: rest =>
    if e = k then (e, v) :: rest else (k, w) :: evStore rest e v

/-- The mutable state of `HdlSimulator` visible to the phase machine.  The
current time is not a field: within one instant it is constant, so it is
passed as a read-only parameter to every function below the main loop,
mirroring `self.now` which only the main loop reassigns
(`src/pycocotb/hdlSimulator.py` line 198). -/
structure SimState where
  cal : SimCalendar := []
  slot : SimTimeSlot := {}
  curRef : CurRef := .cnone
  events : EventTable := []
  rtl : Rtl := {}
  agents : List (Nat × AgentSt) := []
deriving DecidableEq, Repr

/-- Outcome of one scheduler operation: normal completion, a raised Python
exception (with the state at the raise), or fuel exhaustion (the Python
loop would still be running). -/
inductive Out
  | ok (st : SimState)
  | err (e : SimError) (st : SimState)
  | fuelOut (st : SimState)
deriving DecidableEq, Repr

/-- An operation returns its outcome together with the list of trace events
it emitted. -/
abbrev StepRes := Out × List TraceEvent

/-- Sequencing of operations, accumulating traces; errors and fuel
exhaustion short-circuit. -/
def andThen (x : StepRes) (f : SimState → StepRes) : StepRes :=
  match x with
  | (.ok st, tr) =>
    let y := f st
    (y.1, tr ++ y.2)
  | other => other

/-! ## The process runner (`src/pycocotb/hdlSimulator.py` lines 110-161, 267-284) -/

/-- The remainder of one `ClockAgent.driver` loop iteration after its first
`Timer(halfPeriod)` yield (`src/hwtSimApi/agents/clk.py` lines 40-45). -/
def clkTail (period sig : Nat) : Proc :=
  .seq (.yieldT .waitWriteOnly) (.seq (.writeSig sig (some 1))
    (.seq (.yieldT (.timer (period / 2))) (.seq (.yieldT .waitWriteOnly)
      (.seq (.writeSig sig (some 0)) (.clkLoop period sig)))))

/-- A fresh instance of `ClockAgent.monitor`
(`src/hwtSimApi/agents/clk.py` lines 52-80): yield `WaitCombRead`, then run
the recording body. -/
def monitorProc (a s : Nat) : Proc :=
  .seq (.yieldT .waitCombRead) (.seq (.monitorStep a s) .nil)

/-- The whole `ClockAgent.driver` (`src/hwtSimApi/agents/clk.py` lines
28-45): yield `WaitWriteOnly`, write 0, yield `Timer(initWait)`, then the
infinite oscillation loop. -/
def clkDriver (period initWait sig : Nat) : Proc :=
  .seq (.yieldT .waitWriteOnly) (.seq (.writeSig sig (some 0))
    (.seq (.yieldT (.timer initWait)) (.clkLoop period sig)))

/-- Modelled from the spec: the body of `raise_StopSimulation` (the
`triggers` module is not under `src/`): a generator that raises
`StopSimumulation` when resumed. -/
def stopProc : Proc := .seq .raiseStop .nil

/-- `HdlSimulator._schedule_proc_now`
(`src/pycocotb/hdlSimulator.py` lines 267-269): append to
`self._current_event_list`.  There is no check for a sealed phase: when
`_current_event_list` is Python `None` (after a drain finished) the append
raises a payload-free `AttributeError`; likewise on the `DONE` sentinel. -/
def schedProcNow (it : SimItem) (st : SimState) : Out :=
  match st.curRef with
  | .cnone => .err .attrErrorNone st
  | .cdone => .err .attrErrorDone st
  | .cphase p =>
    match st.slot.get p with
    | .queue l => .ok { st with slot := st.slot.set p (.queue (l ++ [it])) }
    | .unalloc => .err .attrErrorNone st
    | .done => .err .attrErrorDone st

/-- `HdlSimulator._schedule_proc`
(`src/pycocotb/hdlSimulator.py` lines 271-284): at the current time, append
to the active event list; otherwise fetch (or create and push) the slot at
`time` and append to its `write_only` list, allocating it when `None`.
Appending to a `DONE` `write_only` raises a payload-free
`AttributeError`. -/
def schedProc (now time : Nat) (it : SimItem) (st : SimState) : Out :=
  if time = now then schedProcNow it st
  else
    match calLookup st.cal time with
    | some ts =>
      match ts.write_only with
      | .unalloc =>
        .ok { st with
              cal := calPush st.cal time { ts with write_only := .queue [it] } }
      | .queue l =>
        .ok { st with
              cal := calPush st.cal time
                { ts with write_only := .queue (l ++ [it]) } }
      | .done => .err .attrErrorDone st
    | none =>
      .ok { st with cal := calPush st.cal time { write_only := .queue [it] } }

/-- Modelled from the spec: the phase-wait triggers `WaitCombRead`,
`WaitCombStable` and `WaitTimeslotEnd` (spec section 4.5; the `triggers`
module is not under `src/`): enqueue the suspended process on the named
phase of the current slot, allocating the list on first use; if the phase
is already `DONE` this is a `PhaseClosedError`. -/
def waitPhase (now : Nat) (p : SimPhase) (k : Proc) (st : SimState) : Out :=
  match st.slot.get p with
  | .unalloc => .ok { st with slot := st.slot.set p (.queue [.iproc k]) }
  | .queue l => .ok { st with slot := st.slot.set p (.queue (l ++ [.iproc k])) }
  | .done => .err (.phaseClosed now p (.iproc k)) st

/-- `HdlSimulator._run_process` (`src/pycocotb/hdlSimulator.py` lines
110-128) running the process until it suspends, finishes or raises,
together with the spec-modelled `applyProcess` of each trigger:

  * `Timer(d)` schedules the rest of the process via `_schedule_proc` at
    `now + d` and suspends;
  * `WaitWriteOnly` continues without suspension when `write_only` is the
    phase currently draining, enqueues on `write_only` (reopening it) when
    it is not sealed, and raises `PhaseClosedError` when it is `DONE`;
  * the other wait triggers enqueue on their phase of the current slot;
  * `Event` appends the process to the event's waiter list;
  * a yielded child generator is scheduled with `_schedule_proc_now` and
    the parent keeps running (lines 123-126);
  * any other yielded value raises `ValueError(ev)` (line 128). -/
def runProcessGo (now : Nat) : Proc → SimState → StepRes
  | .nil, st => (.ok st, [])
  | .seqChild c k, st =>
    match schedProcNow (.iproc c) st with
    | .ok st1 => runProcessGo now k st1
    | other => (other, [])
  | .clkLoop period sig, st =>
    (schedProc now (now + period / 2) (.iproc (clkTail period sig)) st, [])
  | .seq a k, st =>
    match a with
    | .yieldT (.timer d) => (schedProc now (now + d) (.iproc k) st, [])
    | .yieldT .waitWriteOnly =>
      if st.curRef = .cphase .writeOnly then runProcessGo now k st
      else
        match st.slot.write_only with
        | .unalloc =>
          (.ok { st with
                 slot := { st.slot with write_only := .queue [.iproc k] } }, [])
        | .queue l =>
          (.ok { st with
                 slot := { st.slot with
                           write_only := .queue (l ++ [.iproc k]) } }, [])
        | .done => (.err (.phaseClosed now .writeOnly (.iproc k)) st, [])
    | .yieldT .waitCombRead => (waitPhase now .combRead k st, [])
    | .yieldT .waitCombStable => (waitPhase now .combStable k st, [])
    | .yieldT .waitTimeslotEnd => (waitPhase now .timeslotEnd k st, [])
    | .yieldT (.waitEvent eid) =>
      (.ok { st with
             events := evStore st.events eid (evRead st.events eid ++ [k]) }, [])
    | .writeSig s v =>
      let st1 := { st with
                   rtl := { st.rtl with sigVal := sigStore st.rtl.sigVal s v } }
      let r := runProcessGo now k st1
      (r.1, .sigWrite now s v :: r.2)
    | .logResume tag =>
      let r := runProcessGo now k st
      (r.1, .plog now tag :: r.2)
    | .monitorStep a s =>
      let st1 :=
        match agentRead st.agents a with
        | none => st
        | some ag =>
          { st with
            agents := agentStore st.agents a
              { ag with
                mon := monStep ag.mon (Int.ofNat now)
                  (sigRead st.rtl.sigVal s) } }
      runProcessGo now k st1
    | .spawnMonitor a s =>
      let en :=
        match agentRead st.agents a with
        | none => false
        | some ag => ag.enabled
      if en then
        match schedProcNow (.iproc (monitorProc a s)) st with
        | .ok st1 => runProcessGo now k st1
        | other => (other, [])
      else runProcessGo now k st
    | .fireEvent eid =>
      match schedProcNow (.ievent eid) st with
      | .ok st1 => runProcessGo now k st1
      | other => (other, [])
    | .raiseStop => (.err .stopSim st, [])
    | .badYield v => (.err (.valueError v) st, [])

/-- `_run_process` invocation: emits a `resume` trace event and runs the
process to its next suspension. -/
def runProcess (now : Nat) (p : Proc) (st : SimState) : StepRes :=
  let r := runProcessGo now p st
  (r.1, .resume now :: r.2)

/-- Run a list of processes in order (the waiters of a fired `Event`, or
`pending_event_list`); an error aborts the rest. -/
def runWaiters (now : Nat) : List Proc → SimState → StepRes
  | [], st => (.ok st, [])
  | p :: rest, st => andThen (runProcess now p st) (runWaiters now rest)

/-- Run one item of a phase-queue (`src/pycocotb/hdlSimulator.py` lines
153-159): an `Event` is expanded into its waiters, run in arrival order
(its waiter list is emptied, spec section 4.4); anything else is a process. -/
def runItem (now : Nat) (it : SimItem) (st : SimState) : StepRes :=
  match it with
  | .iproc p => runProcess now p st
  | .ievent eid =>
    let ws := evRead st.events eid
    runWaiters now ws { st with events := evStore st.events eid [] }

/-- `HdlSimulator._eval_rtl_events` (`src/pycocotb/hdlSimulator.py` lines
130-145): when `pending_event_list` is non-empty, run each pending
callback process directly and clear the list. -/
def evalRtlEvents (now : Nat) (st : SimState) : StepRes :=
  let ps := st.rtl.pending
  if ps.isEmpty then (.ok st, [])
  else runWaiters now ps { st with rtl := { st.rtl with pending := [] } }

/-- The item-consuming loop of `_run_event_list`: take the head of the
phase's queue (appends during the drain extend the same list and are
visited in the same pass, like Python list iteration), run it, repeat. -/
def drainItems (fuel now : Nat) (p : SimPhase) (st : SimState) : StepRes :=
  match fuel with
  | 0 => (.fuelOut st, [])
  | fuel + 1 =>
    match st.slot.get p with
    | .queue (i :: rest) =>
      let st1 := { st with slot := st.slot.set p (.queue rest) }
      andThen (runItem now i st1) (drainItems fuel now p)
    | _ => (.ok st, [])

/-- `HdlSimulator._run_event_list` (`src/pycocotb/hdlSimulator.py` lines
147-161) applied to the phase field of the current slot: skipped when the
field is `None`; iterating the `DONE` sentinel would be a `TypeError`;
otherwise the field becomes the current event list and is drained.  On
normal completion `_current_event_list` is reset to `None` (line 161); when
an item raises, the exception propagates and the reset does not happen. -/
def drainPhase (fuel now : Nat) (p : SimPhase) (st : SimState) : StepRes :=
  match st.slot.get p with
  | .unalloc => (.ok { st with curRef := .cnone }, [])
  | .done => (.err .typeError st, [])
  | .queue _ =>
    let st1 := { st with curRef := .cphase p }
    let r := andThen (drainItems fuel now p st1) fun st2 =>
      (.ok { st2 with curRef := .cnone }, [])
    (r.1, .phaseDrain now p :: r.2)

/-! ## The phase stages of `HdlSimulator.run`
(`src/pycocotb/hdlSimulator.py` lines 163-265) -/

/-- The tail of one `write_only` loop iteration after the status assertion
(`src/pycocotb/hdlSimulator.py` lines 212-225): set up `comb_read` as the
current event list (allocating it when `None`), run the RTL callbacks,
drain `comb_read`, reset it to `None`, and call `reset_eval()` when new
writes were posted to `write_only` meanwhile. -/
def woIterRest (dfuel now : Nat) (st3 : SimState) : StepRes :=
  let st4 :=
    match st3.slot.comb_read with
    | .unalloc =>
      { st3 with slot := { st3.slot with comb_read := .queue [] },
                 curRef := .cphase .combRead }
    | .queue _ => { st3 with curRef := .cphase .combRead }
    | .done => { st3 with curRef := .cdone }
  andThen (evalRtlEvents now st4) fun st5 =>
  andThen (drainPhase dfuel now .combRead st5) fun st6 =>
  let st7 := { st6 with slot := { st6.slot with comb_read := .unalloc } }
  if st7.slot.write_only ≠ .unalloc then
    (.ok { st7 with rtl := st7.rtl.resetEval }, [.resetEval now])
  else
    (.ok st7, [])

/-- One iteration of the `write_only` re-open loop
(`src/pycocotb/hdlSimulator.py` lines 206-225): drain `write_only`, set it
to `None`, call `eval()` which must return `COMB_UPDATE_DONE` — otherwise
the assertion raises with payload `(self.now, s)` — then the
`comb_read`/callback tail. -/
def woIter (dfuel now : Nat) (st : SimState) : StepRes :=
  andThen (drainPhase dfuel now .writeOnly st) fun st1 =>
  let st2 := { st1 with slot := { st1.slot with write_only := .unalloc } }
  let er := st2.rtl.eval
  let st3 := { st2 with rtl := er.1 }
  if er.2 = .combUpdateDone then
    let r := woIterRest dfuel now st3
    (r.1, .evalCall now er.2 :: r.2)
  else
    (.err (.statusAssert now er.2) st3, [.evalCall now er.2])

/-- `while first_run or time_slot.write_only:`
(`src/pycocotb/hdlSimulator.py` line 206), with Python truthiness of the
`write_only` field. -/
def woLoop (fuel dfuel now : Nat) (firstRun : Bool) (st : SimState) :
    StepRes :=
  match fuel with
  | 0 => (.fuelOut st, [])
  | fuel + 1 =>
    if firstRun || (st.slot.write_only).truthy then
      andThen (woIter dfuel now st) (woLoop fuel dfuel now false)
    else (.ok st, [])

/-- The full `write_only` stage (`src/pycocotb/hdlSimulator.py` lines
205-228): the re-open loop, then `write_only` and `comb_read` are sealed
with `DONE`. -/
def writeOnlyStage (fuel dfuel now : Nat) (st : SimState) : StepRes :=
  andThen (woLoop fuel dfuel now true st) fun st1 =>
  (.ok { st1 with
         slot := { st1.slot with write_only := .done, comb_read := .done } },
   [])

/-- The `comb_stable` evaluation loop, faithful to
`src/pycocotb/hdlSimulator.py` lines 231-238 including the test of
`time_slot.comb_read` (not `comb_stable`) in the lazy-allocation check at
line 234: `eval()` until the back-end reports read-only mode, and when an
`eval()` produced pending callbacks, install `comb_stable` as the current
event list using that check and run the callbacks. -/
def combStableLoop (fuel dfuel now : Nat) (st : SimState) : StepRes :=
  match fuel with
  | 0 => (.fuelOut st, [])
  | fuel + 1 =>
    if st.rtl.readOnly then (.ok st, [])
    else
      let er := st.rtl.eval
      let st1 := { st with rtl := er.1 }
      if st1.rtl.pending.isEmpty then
        let r := combStableLoop fuel dfuel now st1
        (r.1, .evalCall now er.2 :: r.2)
      else
        let st2 :=
          match st1.slot.comb_read with
          | .unalloc =>
            { st1 with slot := { st1.slot with comb_stable := .queue [] },
                       curRef := .cphase .combStable }
          | _ =>
            match st1.slot.comb_stable with
            | .queue _ => { st1 with curRef := .cphase .combStable }
            | .unalloc => { st1 with curRef := .cnone }
            | .done => { st1 with curRef := .cdone }
        let r := andThen (evalRtlEvents now st2) (combStableLoop fuel dfuel now)
        (r.1, .evalCall now er.2 :: r.2)

/-- The `comb_stable` stage as the code has it
(`src/pycocotb/hdlSimulator.py` lines 230-241): the loop above, then drain
`comb_stable` and seal it. -/
def combStableStage (fuel dfuel now : Nat) (st : SimState) : StepRes :=
  andThen (combStableLoop fuel dfuel now st) fun st1 =>
  andThen (drainPhase dfuel now .combStable st1) fun st2 =>
  (.ok { st2 with slot := { st2.slot with comb_stable := .done } }, [])

/-- The `comb_stable` evaluation loop following the spec's words instead
(main-loop pseudocode of section 4.6: "repeat RTL eval() until it reports
read_only_not_write_only: drain callbacks into comb_stable", with
`comb_stable` allocated lazily on first use): identical to
`combStableLoop` except that the lazy-allocation check tests the
`comb_stable` field itself. -/
def combStableLoopSpec (fuel dfuel now : Nat) (st : SimState) : StepRes :=
  match fuel with
  | 0 => (.fuelOut st, [])
  | fuel + 1 =>
    if st.rtl.readOnly then (.ok st, [])
    else
      let er := st.rtl.eval
      let st1 := { st with rtl := er.1 }
      if st1.rtl.pending.isEmpty then
        let r := combStableLoopSpec fuel dfuel now st1
        (r.1, .evalCall now er.2 :: r.2)
      else
        let st2 :=
          match st1.slot.comb_stable with
          | .unalloc =>
            { st1 with slot := { st1.slot with comb_stable := .queue [] },
                       curRef := .cphase .combStable }
          | .queue _ => { st1 with curRef := .cphase .combStable }
          | .done => { st1 with curRef := .cdone }
        let r := andThen (evalRtlEvents now st2)
          (combStableLoopSpec fuel dfuel now)
        (r.1, .evalCall now er.2 :: r.2)

/-- The `comb_stable` stage following the spec's words (see
`combStableLoopSpec`). -/
def combStableStageSpec (fuel dfuel now : Nat) (st : SimState) : StepRes :=
  andThen (combStableLoopSpec fuel dfuel now st) fun st1 =>
  andThen (drainPhase dfuel now .combStable st1) fun st2 =>
  (.ok { st2 with slot := { st2.slot with comb_stable := .done } }, [])

/-- The `mem_stable` evaluation loop (`src/pycocotb/hdlSimulator.py` lines
243-252): `eval()`; when it produced pending callbacks, install
`mem_stable` (correctly testing the `mem_stable` field) and run them;
break when the status was `END_OF_STEP`. -/
def memStableLoop (fuel dfuel now : Nat) (st : SimState) : StepRes :=
  match fuel with
  | 0 => (.fuelOut st, [])
  | fuel + 1 =>
    let er := st.rtl.eval
    let st1 := { st with rtl := er.1 }
    let after : SimState → StepRes := fun st2 =>
      if er.2 = .endOfStep then (.ok st2, [])
      else memStableLoop fuel dfuel now st2
    if st1.rtl.pending.isEmpty then
      let r := after st1
      (r.1, .evalCall now er.2 :: r.2)
    else
      let st2 :=
        match st1.slot.mem_stable with
        | .unalloc =>
          { st1 with slot := { st1.slot with mem_stable := .queue [] },
                     curRef := .cphase .memStable }
        | .queue _ => { st1 with curRef := .cphase .memStable }
        | .done => { st1 with curRef := .cdone }
      let r := andThen (evalRtlEvents now st2) after
      (r.1, .evalCall now er.2 :: r.2)

/-- The `mem_stable` stage (`src/pycocotb/hdlSimulator.py` lines 243-254):
the loop, then drain `mem_stable` and seal it. -/
def memStableStage (fuel dfuel now : Nat) (st : SimState) : StepRes :=
  andThen (memStableLoop fuel dfuel now st) fun st1 =>
  andThen (drainPhase dfuel now .memStable st1) fun st2 =>
  (.ok { st2 with slot := { st2.slot with mem_stable := .done } }, [])

/-- One whole instant (`src/pycocotb/hdlSimulator.py` lines 200-258):
drain and seal `timeslot_begin`, the `write_only` stage, the `comb_stable`
stage, the `mem_stable` stage, drain and seal `timeslot_end`, and put the
back-end into write-only mode for the next instant. -/
def processInstant (fuel dfuel now : Nat) (st : SimState) : StepRes :=
  andThen (drainPhase dfuel now .timeslotBegin st) fun st1 =>
  let st2 := { st1 with slot := { st1.slot with timeslot_begin := .done } }
  andThen (writeOnlyStage fuel dfuel now st2) fun st3 =>
  andThen (combStableStage fuel dfuel now st3) fun st4 =>
  andThen (memStableStage fuel dfuel now st4) fun st5 =>
  andThen (drainPhase dfuel now .timeslotEnd st5) fun st6 =>
  (.ok { st6 with slot := { st6.slot with timeslot_end := .done },
                  rtl := st6.rtl.setWriteOnly }, [])

/-! ## The main loop and `run` (`src/pycocotb/hdlSimulator.py` lines 163-265) -/

/-- Result of the main `while True` loop: the outcome, the times of the
instants that were entered (observed `now` at the start of each processed
instant, recorded after the monotonicity assertion passed), and the trace. -/
structure LoopOut where
  res : Out
  instants : List Nat
  tr : List TraceEvent
deriving Repr

/-- The main loop (`src/pycocotb/hdlSimulator.py` lines 194-258): pop the
earliest calendar entry (a `KeyError` on an empty calendar propagates),
assert that its time does not precede the current `now` (line 197), advance
`now` and the back-end's mirrored `time`, process the instant, repeat. -/
def runLoop (fuel fuelI dfuel : Nat) (now : Nat) (st : SimState) : LoopOut :=
  match fuel with
  | 0 => ⟨.fuelOut st, [], []⟩
  | fuel + 1 =>
    match calPop st.cal with
    | none => ⟨.err .keyError st, [], []⟩
    | some ((t, ts), rest) =>
      let st1 := { st with cal := rest, slot := ts }
      if t < now then ⟨.err (.nowAssert t now) st1, [], []⟩
      else
        let st2 := { st1 with rtl := { st1.rtl with time := t } }
        match processInstant fuelI dfuel t st2 with
        | (.ok st3, tr) =>
          let lo := runLoop fuel fuelI dfuel t st3
          ⟨lo.res, t :: lo.instants, (.instantStart t :: tr) ++ lo.tr⟩
        | (.err e st3, tr) => ⟨.err e st3, [t], .instantStart t :: tr⟩
        | (.fuelOut st3, tr) => ⟨.fuelOut st3, [t], .instantStart t :: tr⟩

/-- The calendar after `run`'s initialisation
(`src/pycocotb/hdlSimulator.py` lines 175-186): a boot slot at the current
time whose `write_only` holds the extra processes, and an end-guard slot at
`now + until` whose `write_only` holds the `StopSimulation` raiser. -/
def runInitCal (now bound : Nat) (extra : List Proc) (cal : SimCalendar) :
    SimCalendar :=
  let boot : SimTimeSlot := { write_only := .queue (extra.map .iproc) }
  let endSlot : SimTimeSlot := { write_only := .queue [.iproc stopProc] }
  calPush (calPush cal now boot) (now + bound) endSlot

/-- How `run` exits towards its caller. -/
inductive RunRes
  | finished
  | raised (e : SimError)
  | fuelOut
deriving DecidableEq, Repr

/-- Everything observable about one call of `run`: how it exited, the final
`self.now`, how many times `rtl_sim.finalize()` was invoked during the
call, the processed instants, the trace and the final state. -/
structure RunOutcome where
  res : RunRes
  finalNow : Nat
  finalizeCount : Nat
  instants : List Nat
  tr : List TraceEvent
  st : SimState
deriving Repr

/-- `HdlSimulator.run` (`src/pycocotb/hdlSimulator.py` lines 163-265):
assert `until >= self.now` (an `AssertionError` here propagates before the
`try`, so `finalize()` is not invoked); return immediately when
`until == self.now` (again without `finalize()`); otherwise push the boot
and end-guard slots and run the main loop.  `StopSimumulation` is caught
and ends the run normally; the `finally` clause invokes
`rtl_sim.finalize()` exactly once on every exit from the loop; after a
normal exit the back-end is put into read-only mode for post-mortem
inspection (line 265).  `finalize` is counted in the outcome because the
loop body never invokes it; fuel exhaustion means the loop is still
running, so `finalize()` has not been reached yet. -/
def run (fuel fuelI dfuel : Nat) (now bound : Nat) (extra : List Proc)
    (st : SimState) : RunOutcome :=
  if bound < now then ⟨.raised (.boundAssert bound now), now, 0, [], [], st⟩
  else if bound = now then ⟨.finished, now, 0, [], [], st⟩
  else
    let st1 := { st with cal := runInitCal now bound extra st.cal }
    let lo := runLoop fuel fuelI dfuel now st1
    let fnow := lo.instants.getLastD now
    match lo.res with
    | .err .stopSim st2 =>
      ⟨.finished, fnow, 1, lo.instants, lo.tr,
        { st2 with rtl := { st2.rtl with readOnly := true } }⟩
    | .err e st2 => ⟨.raised e, fnow, 1, lo.instants, lo.tr, st2⟩
    | .fuelOut st2 => ⟨.fuelOut, fnow, 0, lo.instants, lo.tr, st2⟩
    | .ok st2 =>
      ⟨.finished, fnow, 1, lo.instants, lo.tr,
        { st2 with rtl := { st2.rtl with readOnly := true } }⟩

/-! ## Concrete scenarios -/

/-- Projection of the signal writes of a trace for one signal. -/
def sigWritesOf (tr : List TraceEvent) (s : Nat) : List (Nat × SigVal) :=
  tr.filterMap fun e =>
    match e with
    | .sigWrite t sg v => if sg = s then some (t, v) else none
    | _ => none

/-- Projection of the `resume` times of a trace. -/
def resumeTimes (tr : List TraceEvent) : List Nat :=
  tr.filterMap fun e =>
    match e with
    | .resume t => some t
    | _ => none

/-- Projection of the `logResume` tags of a trace. -/
def plogTags (tr : List TraceEvent) : List Nat :=
  tr.filterMap fun e =>
    match e with
    | .plog _ tag => some tag
    | _ => none

/-- The S1 clock scenario: one `ClockAgent` with `period = 10`,
`initWait = 0` on signal 0, its monitor registered as a change callback of
that signal (the `CallbackLoop` of `getMonitors`), recording state
initialised. -/
def c9State : SimState :=
  { rtl := { callbacks := [(0, .seq (.spawnMonitor 0 0) .nil)] },
    agents := [(0, {})] }

/-- `run(until=45)` of the S1 clock scenario. -/
def c9Run : RunOutcome := run 64 64 64 0 45 [clkDriver 10 0 0] c9State

/-- `run(until=100)` from `now = 0` with the clock driver keeping the
calendar live (the S4 stop-at-bound scenario). -/
def c3Run : RunOutcome := run 64 64 64 0 100 [clkDriver 10 0 0] c9State

/-- C9: a `ClockAgent` with `period = 10`, `initWait = 0`, run until 45,
drives the clock signal through exactly the transitions
0→0, 5→1, 10→0, 15→1, 20→0, 25→1, 30→0, 35→1, 40→0 (value 0 written at
time 0, then an alternation every half period), and its monitor records
the same 9 `(time, value)` tuples. -/
theorem clk_oscillation_s1 :
    c9Run.res = .finished ∧
    sigWritesOf c9Run.tr 0 =
      [(0, some 0), (5, some 1), (10, some 0), (15, some 1), (20, some 0),
       (25, some 1), (30, some 0), (35, some 1), (40, some 0)] ∧
    (agentRead c9Run.st.agents 0).map (fun a => a.mon.data) =
      some [((0 : Int), some 0), (5, some 1), (10, some 0), (15, some 1),
            (20, some 0), (25, some 1), (30, some 0), (35, some 1),
            (40, some 0)] := by
  exact ⟨rfl, rfl, rfl⟩

/-- C3: `run(until=100)` from `now = 0` (with a live clock driver in the
calendar) terminates with `now == 100`, no process is resumed at a time
strictly greater than 100, and `finalize()` is invoked exactly once; the
bound is realised by the end-guard slot that `run` pushes at `now + until`
whose `write_only` phase holds the `StopSimulation`-raising process. -/
theorem run_until_bound_s4 :
    c3Run.res = .finished ∧
    c3Run.finalNow = 100 ∧
    c3Run.finalizeCount = 1 ∧
    ((resumeTimes c3Run.tr).all fun t => t ≤ 100) = true ∧
    ((c3Run.instants).all fun t => t ≤ 100) = true ∧
    (calLookup (runInitCal 0 100 [clkDriver 10 0 0] c9State.cal) 100).map
        (fun s => s.write_only) = some (.queue [.iproc stopProc]) := by
  exact ⟨rfl, rfl, rfl, rfl, rfl, rfl⟩

/-! ## Trace accounting -/

/-- Events emitted by processes and drains (as opposed to the back-end
operations `eval()` and `reset_eval()`). -/
def procOnly (e : TraceEvent) : Bool :=
  match e with
  | .evalCall _ _ => false
  | .resetEval _ => false
  | _ => true

/-- Number of `eval()` invocations recorded in a trace. -/
def countEval (tr : List TraceEvent) : Nat :=
  tr.countP fun e =>
    match e with
    | .evalCall _ _ => true
    | _ => false

/-- Number of `reset_eval()` invocations recorded in a trace. -/
def countReset (tr : List TraceEvent) : Nat :=
  tr.countP fun e =>
    match e with
    | .resetEval _ => true
    | _ => false

/-- Every `eval()` recorded in the trace returned `COMB_UPDATE_DONE`. -/
def evalsOk (tr : List TraceEvent) : Bool :=
  tr.all fun e =>
    match e with
    | .evalCall _ s => decide (s = RtlStatus.combUpdateDone)
    | _ => true

theorem procOnly_counts (tr : List TraceEvent)
    (h : tr.all procOnly = true) :
    countEval tr = 0 ∧ countReset tr = 0 ∧ evalsOk tr = true := by
  induction tr with
  | nil => exact ⟨rfl, rfl, rfl⟩
  | cons e rest ih =>
    simp only [List.all_cons, Bool.and_eq_true] at h
    obtain ⟨he, hrest⟩ := h
    obtain ⟨h1, h2, h3⟩ := ih hrest
    cases e <;> simp_all [countEval, countReset, evalsOk, procOnly,
      List.countP_cons, List.all_cons]

theorem countEval_append (a b : List TraceEvent) :
    countEval (a ++ b) = countEval a + countEval b :=
  List.countP_append _ _ _

theorem countReset_append (a b : List TraceEvent) :
    countReset (a ++ b) = countReset a + countReset b :=
  List.countP_append _ _ _

theorem evalsOk_append (a b : List TraceEvent) :
    evalsOk (a ++ b) = (evalsOk a && evalsOk b) :=
  List.all_append

/-- `andThen` on a successful first step. -/
theorem andThen_okL (st : SimState) (tr : List TraceEvent)
    (f : SimState → StepRes) :
    andThen (.ok st, tr) f = ((f st).1, tr ++ (f st).2) := rfl

/-- `andThen` on a failed first step. -/
theorem andThen_errL (e : SimError) (st : SimState) (tr : List TraceEvent)
    (f : SimState → StepRes) :
    andThen (.err e st, tr) f = (.err e st, tr) := rfl

/-- `andThen` on a fuel-exhausted first step. -/
theorem andThen_fuelL (st : SimState) (tr : List TraceEvent)
    (f : SimState → StepRes) :
    andThen (.fuelOut st, tr) f = (.fuelOut st, tr) := rfl

/-- Decomposition of a successful `andThen`. -/
theorem andThen_ok (x : StepRes) (f : SimState → StepRes)
    (st' : SimState) (tr' : List TraceEvent)
    (h : andThen x f = (.ok st', tr')) :
    ∃ st1 tr1 tr2, x = (.ok st1, tr1) ∧ f st1 = (.ok st', tr2) ∧
      tr' = tr1 ++ tr2 := by
  obtain ⟨o, tr⟩ := x
  cases o with
  | ok st1 =>
    rw [andThen_okL] at h
    have h1 : (f st1).1 = .ok st' := congrArg Prod.fst h
    have h2 : tr ++ (f st1).2 = tr' := congrArg Prod.snd h
    refine ⟨st1, tr, (f st1).2, rfl, ?_, h2.symm⟩
    calc f st1 = ((f st1).1, (f st1).2) := rfl
      _ = (.ok st', (f st1).2) := by rw [h1]
  | err e st1 =>
    rw [andThen_errL] at h
    exact absurd (congrArg Prod.fst h) (by simp)
  | fuelOut st1 =>
    rw [andThen_fuelL] at h
    exact absurd (congrArg Prod.fst h) (by simp)

/-- `all procOnly` composes through `andThen`. -/
theorem andThen_procOnly (x : StepRes) (f : SimState → StepRes)
    (hx : x.2.all procOnly = true)
    (hf : ∀ st, ((f st).2).all procOnly = true) :
    ((andThen x f).2).all procOnly = true := by
  obtain ⟨o, tr⟩ := x
  cases o with
  | ok st1 =>
    rw [andThen_okL]
    simp only [List.all_append, Bool.and_eq_true]
    exact ⟨hx, hf st1⟩
  | err e st1 => simpa using hx
  | fuelOut st1 => simpa using hx

theorem runGo_procOnly (now : Nat) (p : Proc) :
    ∀ st, ((runProcessGo now p st).2).all procOnly = true := by
  induction p with
  | nil => intro st; simp [runProcessGo]
  | seq a k ih =>
    intro st
    cases a with
    | yieldT t =>
      cases t with
      | timer d => simp [runProcessGo]
      | waitWriteOnly =>
        by_cases hc : st.curRef = .cphase .writeOnly
        · simp [runProcessGo, hc, ih]
        · cases hw : st.slot.write_only <;> simp [runProcessGo, hc, hw]
      | waitCombRead => simp [runProcessGo]
      | waitCombStable => simp [runProcessGo]
      | waitTimeslotEnd => simp [runProcessGo]
      | waitEvent eid => simp [runProcessGo]
    | writeSig s v => simp [runProcessGo, procOnly, ih]
    | logResume tag => simp [runProcessGo, procOnly, ih]
    | monitorStep a s =>
      cases hag : agentRead st.agents a <;> simp [runProcessGo, hag, ih]
    | spawnMonitor a s =>
      cases hag : agentRead st.agents a
      · simp [runProcessGo, hag, ih]
      · rename_i ag
        cases hen : ag.enabled
        · simp [runProcessGo, hag, hen, ih]
        · cases hs : schedProcNow (.iproc (monitorProc a s)) st <;>
            simp [runProcessGo, hag, hen, hs, ih]
    | fireEvent eid =>
      cases hs : schedProcNow (.ievent eid) st <;> simp [runProcessGo, hs, ih]
    | raiseStop => simp [runProcessGo]
    | badYield v => simp [runProcessGo]
  | seqChild c k ihc ihk =>
    intro st
    cases hs : schedProcNow (.iproc c) st <;> simp [runProcessGo, hs, ihk]
  | clkLoop period sig => intro st; simp [runProcessGo]

theorem runProcess_procOnly (now : Nat) (p : Proc) (st : SimState) :
    ((runProcess now p st).2).all procOnly = true := by
  simp [runProcess, procOnly, runGo_procOnly]

theorem runWaiters_procOnly (now : Nat) (ws : List Proc) :
    ∀ st, ((runWaiters now ws st).2).all procOnly = true := by
  induction ws with
  | nil => intro st; simp [runWaiters]
  | cons p rest ih =>
    intro st
    exact andThen_procOnly _ _ (runProcess_procOnly now p st) ih

theorem runItem_procOnly (now : Nat) (it : SimItem) (st : SimState) :
    ((runItem now it st).2).all procOnly = true := by
  cases it with
  | iproc p => exact runProcess_procOnly now p st
  | ievent eid => exact runWaiters_procOnly now _ _

theorem evalRtl_procOnly (now : Nat) (st : SimState) :
    ((evalRtlEvents now st).2).all procOnly = true := by
  unfold evalRtlEvents
  by_cases h : st.rtl.pending.isEmpty
  · simp [h]
  · simp only [h, Bool.false_eq_true, if_neg, ite_false]
    exact runWaiters_procOnly now _ _

theorem drainItems_procOnly (fuel now : Nat) (p : SimPhase) :
    ∀ st, ((drainItems fuel now p st).2).all procOnly = true := by
  induction fuel with
  | zero => intro st; simp [drainItems]
  | succ fuel ih =>
    intro st
    cases hq : st.slot.get p with
    | queue l =>
      cases l with
      | nil => simp [drainItems, hq]
      | cons i rest =>
        simp only [drainItems, hq]
        exact andThen_procOnly _ _ (runItem_procOnly ..) ih
    | unalloc => simp [drainItems, hq]
    | done => simp [drainItems, hq]

theorem drainPhase_procOnly (fuel now : Nat) (p : SimPhase) (st : SimState) :
    ((drainPhase fuel now p st).2).all procOnly = true := by
  unfold drainPhase
  cases hq : st.slot.get p with
  | unalloc => simp
  | done => simp
  | queue l =>
    simp only [List.all_cons]
    have := andThen_procOnly (drainItems fuel now p { st with curRef := .cphase p })
      (fun st2 => (.ok { st2 with curRef := .cnone }, []))
      (drainItems_procOnly ..) (fun st2 => by simp)
    simpa [procOnly] using this

/-! ## Frame properties of the process-level operations -/

/-- A healthy `write_only` field between appends: either unallocated or a
non-empty list.  Process-level code only ever reopens `write_only` by
allocating a singleton or appending, so it never produces an allocated
empty list and never seals. -/
def WOgood (q : PQ) : Prop := q = .unalloc ∨ ∃ l, l ≠ [] ∧ q = PQ.queue l

theorem get_set_write_only (s : SimTimeSlot) (p : SimPhase) (q : PQ) :
    (s.set p q).write_only = if p = .writeOnly then q else s.write_only := by
  cases p <;> simp [SimTimeSlot.set]

theorem fst_eq_ok {x : StepRes} {st' : SimState} (h : x.1 = .ok st') :
    x = (.ok st', x.2) := by
  obtain ⟨o, tr⟩ := x
  cases o <;> simp_all

theorem schedProcNow_frame (it : SimItem) (st st' : SimState)
    (h : schedProcNow it st = .ok st') :
    st'.rtl = st.rtl ∧ (WOgood st.slot.write_only → WOgood st'.slot.write_only) := by
  unfold schedProcNow at h
  cases hc : st.curRef with
  | cnone => simp only [hc] at h; exact Out.noConfusion h
  | cdone => simp only [hc] at h; exact Out.noConfusion h
  | cphase p =>
    simp only [hc] at h
    cases hq : st.slot.get p with
    | queue l =>
      simp only [hq] at h
      cases h
      refine ⟨rfl, fun hg => ?_⟩
      show WOgood (st.slot.set p (.queue (l ++ [it]))).write_only
      rw [get_set_write_only]
      by_cases hp : p = .writeOnly
      · rw [if_pos hp]
        exact Or.inr ⟨l ++ [it], by simp, rfl⟩
      · simp only [if_neg hp]
        exact hg
    | unalloc => simp only [hq] at h; exact Out.noConfusion h
    | done => simp only [hq] at h; exact Out.noConfusion h

theorem schedProc_frame (now time : Nat) (it : SimItem) (st st' : SimState)
    (h : schedProc now time it st = .ok st') :
    st'.rtl = st.rtl ∧ (WOgood st.slot.write_only → WOgood st'.slot.write_only) := by
  unfold schedProc at h
  by_cases ht : time = now
  · rw [if_pos ht] at h
    exact schedProcNow_frame it st st' h
  · rw [if_neg ht] at h
    cases hl : calLookup st.cal time with
    | some ts =>
      simp only [hl] at h
      cases hw : ts.write_only with
      | unalloc => simp only [hw] at h; cases h; exact ⟨rfl, fun hg => hg⟩
      | queue l => simp only [hw] at h; cases h; exact ⟨rfl, fun hg => hg⟩
      | done => simp only [hw] at h; exact Out.noConfusion h
    | none => simp only [hl] at h; cases h; exact ⟨rfl, fun hg => hg⟩

theorem waitPhase_frame (now : Nat) (p : SimPhase) (k : Proc) (st st' : SimState)
    (h : waitPhase now p k st = .ok st') :
    st'.rtl = st.rtl ∧ (WOgood st.slot.write_only → WOgood st'.slot.write_only) := by
  unfold waitPhase at h
  cases hq : st.slot.get p with
  | unalloc =>
    simp only [hq] at h
    cases h
    refine ⟨rfl, fun hg => ?_⟩
    show WOgood (st.slot.set p (.queue [.iproc k])).write_only
    rw [get_set_write_only]
    by_cases hp : p = .writeOnly
    · rw [if_pos hp]
      exact Or.inr ⟨[.iproc k], by simp, rfl⟩
    · simp only [if_neg hp]
      exact hg
  | queue l =>
    simp only [hq] at h
    cases h
    refine ⟨rfl, fun hg => ?_⟩
    show WOgood (st.slot.set p (.queue (l ++ [.iproc k]))).write_only
    rw [get_set_write_only]
    by_cases hp : p = .writeOnly
    · rw [if_pos hp]
      exact Or.inr ⟨l ++ [.iproc k], by simp, rfl⟩
    · simp only [if_neg hp]
      exact hg
  | done => simp only [hq] at h; exact Out.noConfusion h

theorem runGo_frame (now : Nat) (p : Proc) :
    ∀ st st' tr, runProcessGo now p st = (.ok st', tr) →
      st'.rtl.pending = st.rtl.pending ∧
      (WOgood st.slot.write_only → WOgood st'.slot.write_only) := by
  induction p with
  | nil =>
    intro st st' tr h
    simp only [runProcessGo] at h
    cases h
    exact ⟨rfl, fun hg => hg⟩
  | seq a k ih =>
    intro st st' tr h
    cases a with
    | yieldT t =>
      cases t with
      | timer d =>
        simp only [runProcessGo] at h
        have h1 : schedProc now (now + d) (.iproc k) st = .ok st' := by
          have := congrArg Prod.fst h
          simpa using this
        obtain ⟨hr, hw⟩ := schedProc_frame _ _ _ _ _ h1
        exact ⟨by rw [hr], hw⟩
      | waitWriteOnly =>
        simp only [runProcessGo] at h
        by_cases hc : st.curRef = .cphase .writeOnly
        · rw [if_pos hc] at h
          exact ih st st' tr h
        · rw [if_neg hc] at h
          cases hw : st.slot.write_only with
          | unalloc =>
            simp only [hw] at h
            cases h
            exact ⟨rfl, fun _ => Or.inr ⟨[.iproc k], by simp, rfl⟩⟩
          | queue l =>
            simp only [hw] at h
            cases h
            exact ⟨rfl, fun _ => Or.inr ⟨l ++ [.iproc k], by simp, rfl⟩⟩
          | done =>
            simp only [hw] at h
            exact absurd (congrArg Prod.fst h) (by simp)
      | waitCombRead =>
        simp only [runProcessGo] at h
        have h1 : waitPhase now .combRead k st = .ok st' := by
          have := congrArg Prod.fst h
          simpa using this
        obtain ⟨hr, hw⟩ := waitPhase_frame _ _ _ _ _ h1
        exact ⟨by rw [hr], hw⟩
      | waitCombStable =>
        simp only [runProcessGo] at h
        have h1 : waitPhase now .combStable k st = .ok st' := by
          have := congrArg Prod.fst h
          simpa using this
        obtain ⟨hr, hw⟩ := waitPhase_frame _ _ _ _ _ h1
        exact ⟨by rw [hr], hw⟩
      | waitTimeslotEnd =>
        simp only [runProcessGo] at h
        have h1 : waitPhase now .timeslotEnd k st = .ok st' := by
          have := congrArg Prod.fst h
          simpa using this
        obtain ⟨hr, hw⟩ := waitPhase_frame _ _ _ _ _ h1
        exact ⟨by rw [hr], hw⟩
      | waitEvent eid =>
        simp only [runProcessGo] at h
        cases h
        exact ⟨rfl, fun hg => hg⟩
    | writeSig s v =>
      simp only [runProcessGo] at h
      have h1 := congrArg Prod.fst h
      simp only at h1
      obtain ⟨hp, hw⟩ := ih _ st' _ (fst_eq_ok h1)
      exact ⟨hp, hw⟩
    | logResume tag =>
      simp only [runProcessGo] at h
      have h1 := congrArg Prod.fst h
      simp only at h1
      exact ih _ st' _ (fst_eq_ok h1)
    | monitorStep a s =>
      simp only [runProcessGo] at h
      cases hag : agentRead st.agents a with
      | none =>
        simp only [hag] at h
        exact ih _ st' _ h
      | some ag =>
        simp only [hag] at h
        obtain ⟨hp1, hw1⟩ := ih _ st' _ h
        exact ⟨hp1, hw1⟩
    | spawnMonitor a s =>
      simp only [runProcessGo] at h
      cases hag : agentRead st.agents a with
      | none =>
        simp only [hag] at h
        exact ih _ st' _ h
      | some ag =>
        simp only [hag] at h
        cases hen : ag.enabled
        · simp only [hen, Bool.false_eq_true, if_neg, ite_false] at h
          exact ih _ st' _ h
        · simp only [hen, if_pos, ite_true] at h
          cases hs : schedProcNow (.iproc (monitorProc a s)) st with
          | ok st1 =>
            simp only [hs] at h
            obtain ⟨hp1, hw1⟩ := ih st1 st' _ h
            obtain ⟨hr0, hw0⟩ := schedProcNow_frame _ _ _ hs
            exact ⟨by rw [hp1, hr0], fun hg => hw1 (hw0 hg)⟩
          | err e st1 => simp only [hs] at h; exact absurd (congrArg Prod.fst h) (by simp)
          | fuelOut st1 => simp only [hs] at h; exact absurd (congrArg Prod.fst h) (by simp)
    | fireEvent eid =>
      simp only [runProcessGo] at h
      cases hs : schedProcNow (.ievent eid) st with
      | ok st1 =>
        simp only [hs] at h
        obtain ⟨hp1, hw1⟩ := ih st1 st' _ h
        obtain ⟨hr0, hw0⟩ := schedProcNow_frame _ _ _ hs
        exact ⟨by rw [hp1, hr0], fun hg => hw1 (hw0 hg)⟩
      | err e st1 => simp only [hs] at h; exact absurd (congrArg Prod.fst h) (by simp)
      | fuelOut st1 => simp only [hs] at h; exact absurd (congrArg Prod.fst h) (by simp)
    | raiseStop =>
      simp only [runProcessGo] at h
      exact absurd (congrArg Prod.fst h) (by simp)
    | badYield v =>
      simp only [runProcessGo] at h
      exact absurd (congrArg Prod.fst h) (by simp)
  | seqChild c k ihc ihk =>
    intro st st' tr h
    simp only [runProcessGo] at h
    cases hs : schedProcNow (.iproc c) st with
    | ok st1 =>
      simp only [hs] at h
      obtain ⟨hp1, hw1⟩ := ihk st1 st' _ h
      obtain ⟨hr0, hw0⟩ := schedProcNow_frame _ _ _ hs
      exact ⟨by rw [hp1, hr0], fun hg => hw1 (hw0 hg)⟩
    | err e st1 => simp only [hs] at h; exact absurd (congrArg Prod.fst h) (by simp)
    | fuelOut st1 => simp only [hs] at h; exact absurd (congrArg Prod.fst h) (by simp)
  | clkLoop period sig =>
    intro st st' tr h
    simp only [runProcessGo] at h
    have h1 : schedProc now (now + period / 2) (.iproc (clkTail period sig)) st = .ok st' := by
      have := congrArg Prod.fst h
      simpa using this
    obtain ⟨hr, hw⟩ := schedProc_frame _ _ _ _ _ h1
    exact ⟨by rw [hr], hw⟩

theorem runProcess_frame (now : Nat) (p : Proc) (st st' : SimState)
    (tr : List TraceEvent) (h : runProcess now p st = (.ok st', tr)) :
    st'.rtl.pending = st.rtl.pending ∧
    (WOgood st.slot.write_only → WOgood st'.slot.write_only) := by
  have h1 := congrArg Prod.fst h
  simp only [runProcess] at h1
  exact runGo_frame now p st st' _ (fst_eq_ok h1)

theorem runWaiters_frame (now : Nat) (ws : List Proc) :
    ∀ st st' tr, runWaiters now ws st = (.ok st', tr) →
      st'.rtl.pending = st.rtl.pending ∧
      (WOgood st.slot.write_only → WOgood st'.slot.write_only) := by
  induction ws with
  | nil =>
    intro st st' tr h
    simp only [runWaiters] at h
    cases h
    exact ⟨rfl, fun hg => hg⟩
  | cons p rest ih =>
    intro st st' tr h
    simp only [runWaiters] at h
    obtain ⟨st1, tr1, tr2, hx, hf, htr⟩ := andThen_ok _ _ _ _ h
    obtain ⟨hp1, hw1⟩ := runProcess_frame now p st st1 _ hx
    obtain ⟨hp2, hw2⟩ := ih st1 st' _ hf
    exact ⟨by rw [hp2, hp1], fun hg => hw2 (hw1 hg)⟩

theorem runItem_frame (now : Nat) (it : SimItem) (st st' : SimState)
    (tr : List TraceEvent) (h : runItem now it st = (.ok st', tr)) :
    st'.rtl.pending = st.rtl.pending ∧
    (WOgood st.slot.write_only → WOgood st'.slot.write_only) := by
  cases it with
  | iproc p => exact runProcess_frame now p st st' tr h
  | ievent eid =>
    simp only [runItem] at h
    obtain ⟨hp1, hw1⟩ := runWaiters_frame now _ _ st' _ h
    exact ⟨hp1, hw1⟩

theorem evalRtl_frame (now : Nat) (st st' : SimState) (tr : List TraceEvent)
    (h : evalRtlEvents now st = (.ok st', tr)) :
    st'.rtl.pending = [] ∧
    (WOgood st.slot.write_only → WOgood st'.slot.write_only) := by
  unfold evalRtlEvents at h
  by_cases he : st.rtl.pending.isEmpty
  · rw [if_pos he] at h
    cases h
    exact ⟨List.isEmpty_iff.1 he, fun hg => hg⟩
  · rw [if_neg he] at h
    obtain ⟨hp1, hw1⟩ := runWaiters_frame now _ _ st' _ h
    exact ⟨hp1, hw1⟩

theorem drainItems_frame (fuel now : Nat) (p : SimPhase)
    (hp : p ≠ .writeOnly) :
    ∀ st st' tr, drainItems fuel now p st = (.ok st', tr) →
      st'.rtl.pending = st.rtl.pending ∧
      (WOgood st.slot.write_only → WOgood st'.slot.write_only) := by
  induction fuel with
  | zero =>
    intro st st' tr h
    simp only [drainItems] at h
    exact absurd (congrArg Prod.fst h) (by simp)
  | succ fuel ih =>
    intro st st' tr h
    simp only [drainItems] at h
    cases hq : st.slot.get p with
    | queue l =>
      cases l with
      | nil =>
        simp only [hq] at h
        cases h
        exact ⟨rfl, fun hg => hg⟩
      | cons i rest =>
        simp only [hq] at h
        obtain ⟨st2, tr1, tr2, hx, hf, htr⟩ := andThen_ok _ _ _ _ h
        obtain ⟨hp1, hw1⟩ := runItem_frame now i _ st2 _ hx
        obtain ⟨hp2, hw2⟩ := ih st2 st' _ hf
        refine ⟨by rw [hp2, hp1], fun hg => hw2 (hw1 ?_)⟩
        show WOgood (st.slot.set p (.queue rest)).write_only
        rw [get_set_write_only, if_neg hp]
        exact hg
    | unalloc =>
      simp only [hq] at h
      cases h
      exact ⟨rfl, fun hg => hg⟩
    | done =>
      simp only [hq] at h
      cases h
      exact ⟨rfl, fun hg => hg⟩

theorem drainPhase_frame (fuel now : Nat) (p : SimPhase)
    (hp : p ≠ .writeOnly) (st st' : SimState) (tr : List TraceEvent)
    (h : drainPhase fuel now p st = (.ok st', tr)) :
    st'.rtl.pending = st.rtl.pending ∧
    (WOgood st.slot.write_only → WOgood st'.slot.write_only) := by
  unfold drainPhase at h
  cases hq : st.slot.get p with
  | unalloc =>
    simp only [hq] at h
    cases h
    exact ⟨rfl, fun hg => hg⟩
  | done =>
    simp only [hq] at h
    exact Prod.noConfusion h fun h1 _ => Out.noConfusion h1
  | queue l =>
    simp only [hq] at h
    have h1 := congrArg Prod.fst h
    simp only at h1
    obtain ⟨st2, tr1, tr2, hx, hf, htr⟩ := andThen_ok _ _ _ _ (fst_eq_ok h1)
    obtain ⟨hp1, hw1⟩ := drainItems_frame fuel now p hp _ st2 _ hx
    have hst : st' = { st2 with curRef := .cnone } := by
      have := congrArg Prod.fst hf
      simpa using this.symm
    subst hst
    exact ⟨hp1, fun hg => hw1 hg⟩

theorem countEval_nil : countEval [] = 0 := rfl

theorem countReset_nil : countReset [] = 0 := rfl

theorem evalsOk_nil : evalsOk [] = true := rfl

theorem countEval_reset (t : Nat) : countEval [TraceEvent.resetEval t] = 0 := rfl

theorem countReset_reset (t : Nat) : countReset [TraceEvent.resetEval t] = 1 := rfl

theorem evalsOk_reset (t : Nat) : evalsOk [TraceEvent.resetEval t] = true := rfl

theorem woRestTail_spec (dfuel now : Nat) (st4 st' : SimState)
    (tr : List TraceEvent)
    (h : (andThen (evalRtlEvents now st4) fun st5 =>
          andThen (drainPhase dfuel now .combRead st5) fun st6 =>
          let st7 := { st6 with slot := { st6.slot with comb_read := .unalloc } }
          if st7.slot.write_only ≠ .unalloc then
            (.ok { st7 with rtl := st7.rtl.resetEval }, [.resetEval now])
          else (.ok st7, [])) = (.ok st', tr)) :
    st'.rtl.pending = [] ∧
    (WOgood st4.slot.write_only → WOgood st'.slot.write_only) ∧
    st'.slot.comb_read = .unalloc ∧
    countEval tr = 0 ∧ evalsOk tr = true ∧
    countReset tr = (if st'.slot.write_only = .unalloc then 0 else 1) := by
  obtain ⟨st5, tr1, tr23, hx, hrest, htr⟩ := andThen_ok _ _ _ _ h
  obtain ⟨hp5, hw5⟩ := evalRtl_frame now st4 st5 _ hx
  obtain ⟨st6, tr2, tr3, hy, hz, htr2⟩ := andThen_ok _ _ _ _ hrest
  obtain ⟨hp6, hw6⟩ := drainPhase_frame dfuel now .combRead (by simp) st5 st6 _ hy
  have hpo1 : tr1.all procOnly = true := by
    have := evalRtl_procOnly now st4
    rw [congrArg Prod.snd hx] at this
    exact this
  have hpo2 : tr2.all procOnly = true := by
    have := drainPhase_procOnly dfuel now .combRead st5
    rw [congrArg Prod.snd hy] at this
    exact this
  obtain ⟨hc1, hr1, he1⟩ := procOnly_counts tr1 hpo1
  obtain ⟨hc2, hr2, he2⟩ := procOnly_counts tr2 hpo2
  by_cases hwo : st6.slot.write_only = .unalloc
  · rw [if_neg (not_not_intro hwo)] at hz
    cases hz
    subst htr htr2
    refine ⟨by rw [show ({ st6 with slot := { st6.slot with comb_read := .unalloc } } : SimState).rtl.pending = st6.rtl.pending from rfl, hp6, hp5],
            fun hg => ?_, rfl, ?_, ?_, ?_⟩
    · show WOgood st6.slot.write_only
      exact hw6 (hw5 hg)
    · simp [countEval_append, hc1, hc2, countEval_nil]
    · simp [evalsOk_append, he1, he2, evalsOk_nil]
    · show countReset (tr1 ++ (tr2 ++ [])) = _
      rw [if_pos (show ({ st6 with slot := { st6.slot with comb_read := .unalloc } } : SimState).slot.write_only = .unalloc from hwo)]
      simp [countReset_append, hr1, hr2, countReset_nil]
  · rw [if_pos hwo] at hz
    cases hz
    subst htr htr2
    refine ⟨?_, fun hg => ?_, rfl, ?_, ?_, ?_⟩
    · show (({ st6 with slot := { st6.slot with comb_read := .unalloc } } : SimState).rtl.resetEval).pending = []
      rw [show (({ st6 with slot := { st6.slot with comb_read := .unalloc } } : SimState).rtl.resetEval).pending = st6.rtl.pending from rfl, hp6, hp5]
    · show WOgood st6.slot.write_only
      exact hw6 (hw5 hg)
    · simp [countEval_append, hc1, hc2, countEval_reset]
    · simp [evalsOk_append, he1, he2, evalsOk_reset]
    · show countReset (tr1 ++ (tr2 ++ [.resetEval now])) = _
      rw [if_neg (show ¬ ({ st6 with slot := { st6.slot with comb_read := .unalloc } } : SimState).slot.write_only = .unalloc from hwo)]
      simp [countReset_append, hr1, hr2, countReset_reset]

theorem woIterRest_spec (dfuel now : Nat) (st3 st' : SimState)
    (tr : List TraceEvent) (h : woIterRest dfuel now st3 = (.ok st', tr)) :
    st'.rtl.pending = [] ∧
    (WOgood st3.slot.write_only → WOgood st'.slot.write_only) ∧
    st'.slot.comb_read = .unalloc ∧
    countEval tr = 0 ∧ evalsOk tr = true ∧
    countReset tr = (if st'.slot.write_only = .unalloc then 0 else 1) := by
  unfold woIterRest at h
  cases hcr : st3.slot.comb_read with
  | unalloc =>
    simp only [hcr] at h
    obtain ⟨h1, h2, h3, h4, h5, h6⟩ := woRestTail_spec dfuel now _ st' tr h
    exact ⟨h1, fun hg => h2 hg, h3, h4, h5, h6⟩
  | queue l =>
    simp only [hcr] at h
    obtain ⟨h1, h2, h3, h4, h5, h6⟩ := woRestTail_spec dfuel now _ st' tr h
    exact ⟨h1, fun hg => h2 hg, h3, h4, h5, h6⟩
  | done =>
    simp only [hcr] at h
    obtain ⟨h1, h2, h3, h4, h5, h6⟩ := woRestTail_spec dfuel now _ st' tr h
    exact ⟨h1, fun hg => h2 hg, h3, h4, h5, h6⟩

theorem countEval_cons_eval (t : Nat) (s : RtlStatus) (l : List TraceEvent) :
    countEval (TraceEvent.evalCall t s :: l) = countEval l + 1 := by
  simp [countEval, List.countP_cons]

theorem countReset_cons_eval (t : Nat) (s : RtlStatus) (l : List TraceEvent) :
    countReset (TraceEvent.evalCall t s :: l) = countReset l := by
  simp [countReset, List.countP_cons]

theorem evalsOk_cons_eval (t : Nat) (s : RtlStatus) (l : List TraceEvent) :
    evalsOk (TraceEvent.evalCall t s :: l) =
      (decide (s = RtlStatus.combUpdateDone) && evalsOk l) := by
  simp [evalsOk, List.all_cons]

theorem woIter_spec (dfuel now : Nat) (st st' : SimState)
    (tr : List TraceEvent) (h : woIter dfuel now st = (.ok st', tr)) :
    st'.rtl.pending = [] ∧
    WOgood st'.slot.write_only ∧
    st'.slot.comb_read = .unalloc ∧
    countEval tr = 1 ∧ evalsOk tr = true ∧
    countReset tr = (if st'.slot.write_only = .unalloc then 0 else 1) := by
  unfold woIter at h
  obtain ⟨st1, tr1, tr2, hx, hrest, htr⟩ := andThen_ok _ _ _ _ h
  have hpo1 : tr1.all procOnly = true := by
    have := drainPhase_procOnly dfuel now .writeOnly st
    rw [congrArg Prod.snd hx] at this
    exact this
  obtain ⟨hc1, hr1, he1⟩ := procOnly_counts tr1 hpo1
  cases her : ({ st1 with slot := { st1.slot with write_only := PQ.unalloc } } : SimState).rtl.eval with
  | mk r s =>
    simp only [her] at hrest
    by_cases hs : s = RtlStatus.combUpdateDone
    · rw [if_pos hs] at hrest
      have h1 := congrArg Prod.fst hrest
      simp only at h1
      have h2 := congrArg Prod.snd hrest
      simp only at h2
      obtain ⟨g1, g2, g3, g4, g5, g6⟩ :=
        woIterRest_spec dfuel now _ st' _ (fst_eq_ok h1)
      have hwg : WOgood ({ { st1 with slot := { st1.slot with write_only := PQ.unalloc } } with rtl := r } : SimState).slot.write_only :=
        Or.inl rfl
      refine ⟨g1, g2 hwg, g3, ?_, ?_, ?_⟩
      · subst htr
        rw [← h2, countEval_append, hc1, countEval_cons_eval, g4]
      · subst htr
        rw [← h2, evalsOk_append, he1, evalsOk_cons_eval, g5, hs]
        simp
      · subst htr
        rw [← h2, countReset_append, hr1, countReset_cons_eval, g6]
        simp
    · rw [if_neg hs] at hrest
      exact absurd (congrArg Prod.fst hrest) (by simp)

theorem woGood_count {q : PQ} (h : WOgood q) :
    (if q.truthy = true then 1 else 0) = (if q = .unalloc then 0 else 1) := by
  rcases h with h | ⟨l, hl, hq⟩
  · subst h; simp [PQ.truthy]
  · subst hq; simp [PQ.truthy, List.isEmpty_iff, hl]

theorem woLoopF_spec (fuel : Nat) :
    ∀ (dfuel now : Nat) (st st' : SimState) (tr : List TraceEvent),
    woLoop fuel dfuel now false st = (.ok st', tr) →
    WOgood st.slot.write_only →
    st'.slot.write_only = .unalloc ∧
    countEval tr = countReset tr +
      (if (st.slot.write_only).truthy = true then 1 else 0) ∧
    evalsOk tr = true ∧
    (st.rtl.pending = [] → st'.rtl.pending = []) ∧
    (st.slot.comb_read = .unalloc → st'.slot.comb_read = .unalloc) := by
  induction fuel with
  | zero =>
    intro dfuel now st st' tr h hwg
    simp only [woLoop] at h
    exact absurd (congrArg Prod.fst h) (by simp)
  | succ fuel ih =>
    intro dfuel now st st' tr h hwg
    simp only [woLoop, Bool.false_or] at h
    by_cases ht : (st.slot.write_only).truthy = true
    · rw [if_pos ht] at h
      obtain ⟨st1, trI, trR, hx, hrest, htr⟩ := andThen_ok _ _ _ _ h
      obtain ⟨i1, i2, i3, i4, i5, i6⟩ := woIter_spec dfuel now st st1 _ hx
      obtain ⟨r1, r2, r3, r4, r5⟩ := ih dfuel now st1 st' _ hrest i2
      subst htr
      refine ⟨r1, ?_, ?_, fun _ => r4 i1, fun _ => r5 i3⟩
      · rw [countEval_append, countReset_append, i4, r2, i6, if_pos ht,
          woGood_count i2]
        omega
      · rw [evalsOk_append, i5, r3]
        simp
    · rw [if_neg ht] at h
      cases h
      have hwo : st.slot.write_only = .unalloc := by
        rcases hwg with h1 | ⟨l, hl, hq⟩
        · exact h1
        · exfalso
          apply ht
          rw [hq]
          simp [PQ.truthy, List.isEmpty_iff, hl]
      refine ⟨hwo, ?_, rfl, fun hp => hp, fun hc => hc⟩
      rw [if_neg ht, countEval_nil, countReset_nil]

theorem writeOnlyStage_spec (fuel dfuel now : Nat) (st st' : SimState)
    (tr : List TraceEvent)
    (h : writeOnlyStage fuel dfuel now st = (.ok st', tr)) :
    st'.slot.write_only = .done ∧ st'.slot.comb_read = .done ∧
    st'.rtl.pending = [] ∧
    evalsOk tr = true ∧
    countEval tr = countReset tr + 1 ∧
    1 ≤ countEval tr := by
  unfold writeOnlyStage at h
  obtain ⟨stL, trL, trS, hx, hseal, htr⟩ := andThen_ok _ _ _ _ h
  cases hseal
  cases fuel with
  | zero =>
    simp only [woLoop] at hx
    exact absurd (congrArg Prod.fst hx) (by simp)
  | succ fuel =>
    simp only [woLoop, Bool.true_or, if_pos] at hx
    obtain ⟨st1, trI, trR, hy, hz, htr2⟩ := andThen_ok _ _ _ _ hx
    obtain ⟨i1, i2, i3, i4, i5, i6⟩ := woIter_spec dfuel now st st1 _ hy
    obtain ⟨r1, r2, r3, r4, r5⟩ := woLoopF_spec fuel dfuel now st1 stL _ hz i2
    subst htr htr2
    refine ⟨rfl, rfl, r4 i1, ?_, ?_, ?_⟩
    · rw [List.append_nil, evalsOk_append, i5, r3]
      simp
    · rw [List.append_nil, countEval_append, countReset_append, i4, r2, i6,
        woGood_count i2]
      omega
    · rw [List.append_nil, countEval_append, i4]
      omega

/-- State carried by an outcome. -/
def outState : Out → SimState
  | .ok st => st
  | .err _ st => st
  | .fuelOut st => st

/-- The raised error of an outcome, when there is one. -/
def outErr : Out → Option SimError
  | .err e _ => some e
  | _ => none

/-- A state whose back-end is scripted to report `END_OF_STEP` from the
first `eval()` of the `write_only` stage. -/
def c1BadSt : SimState := { rtl := { script := [.endOfStep] } }

/-- `c1BadSt` after the (empty) `write_only` drain. -/
def c1BadSt1 : SimState := { c1BadSt with curRef := .cnone }

/-- `c1BadSt1` with `write_only` set back to `None`, the state whose
back-end `eval()` the `write_only` loop consults. -/
def c1BadSt2 : SimState :=
  { c1BadSt1 with slot := { c1BadSt1.slot with write_only := PQ.unalloc } }

/-- C1: within one instant, after each drain of the `write_only`
phase-queue the RTL back-end's `eval()` is called and must return
`COMB_UPDATE_DONE` — otherwise the run aborts with a diagnostic carrying
`now` and the status; the RTL callbacks are then run with `comb_read` as
the current event list and `comb_read` is drained; when new items were
posted to `write_only` during that pass, `reset_eval()` is called and the
drain-eval cycle repeats; `write_only` is sealed only when no further
writes remain.  Formally: (1) on a successful `write_only` stage both
`write_only` and `comb_read` end sealed as `DONE`, `pending_event_list` is
empty, every recorded `eval()` returned `COMB_UPDATE_DONE`, and the number
of `eval()` calls is exactly one more than the number of `reset_eval()`
calls (at least one `eval()` happens, one per drain pass, and a
`reset_eval()` exactly between consecutive passes, i.e. exactly when the
pass reopened `write_only`); (2) when the `eval()` after a `write_only`
drain reports anything other than `COMB_UPDATE_DONE`, the iteration aborts
with `statusAssert (now, s)`; (3) with no pending writes the loop performs
no further pass, so `write_only` is sealed exactly when no writes
remain. -/
theorem write_only_drain_eval_cycle :
    (∀ fuel dfuel now st st' tr,
        writeOnlyStage fuel dfuel now st = (.ok st', tr) →
        st'.slot.write_only = .done ∧ st'.slot.comb_read = .done ∧
        st'.rtl.pending = [] ∧ evalsOk tr = true ∧
        countEval tr = countReset tr + 1 ∧ 1 ≤ countEval tr) ∧
    (∀ dfuel now st st1 tr1 r s,
        drainPhase dfuel now .writeOnly st = (.ok st1, tr1) →
        ({ st1 with slot := { st1.slot with write_only := PQ.unalloc } } :
            SimState).rtl.eval = (r, s) →
        s ≠ .combUpdateDone →
        woIter dfuel now st =
          (.err (.statusAssert now s)
            { st1 with slot := { st1.slot with write_only := PQ.unalloc },
                       rtl := r }, tr1 ++ [.evalCall now s])) ∧
    (∀ fuel dfuel now st, (st.slot.write_only).truthy = false →
        woLoop (fuel + 1) dfuel now false st = (.ok st, [])) := by
  refine ⟨fun fuel dfuel now st st' tr h =>
      writeOnlyStage_spec fuel dfuel now st st' tr h, ?_, ?_⟩
  · intro dfuel now st st1 tr1 r s hx her hs
    unfold woIter
    rw [hx, andThen_okL]
    simp only [her]
    rw [if_neg hs]
  · intro fuel dfuel now st ht
    simp only [woLoop, Bool.false_or, ht]
    rw [if_neg (by simp)]

/-- Witness for C1: a concrete successful stage (the empty instant), a
concrete aborting iteration (back-end scripted to `END_OF_STEP`), and a
concrete no-writes loop exit. -/
theorem write_only_drain_eval_cycle_witness :
    (outState (writeOnlyStage 8 8 0 {}).1).slot.write_only = PQ.done ∧
    outErr (woIter 4 3 c1BadSt).1 = some (.statusAssert 3 .endOfStep) ∧
    woLoop 5 4 0 false {} = (.ok {}, []) := by
  refine ⟨?_, ?_, ?_⟩
  · have h := (write_only_drain_eval_cycle.1 8 8 0 {}
      (outState (writeOnlyStage 8 8 0 {}).1) (writeOnlyStage 8 8 0 {}).2
      rfl).1
    exact h
  · have h := write_only_drain_eval_cycle.2.1 4 3 c1BadSt c1BadSt1 []
      (c1BadSt2.rtl.eval).1 (c1BadSt2.rtl.eval).2 rfl rfl (by decide)
    rw [h]
    rfl
  · exact write_only_drain_eval_cycle.2.2 4 4 0 {} rfl

/-! ## C4: the `comb_stable` lazy-allocation check -/

/-- A process that writes during `comb_read` (after the last `eval()` of
the `write_only` loop), invalidating the snapshot. -/
def c4Writer : Proc := .seq (.writeSig 5 (some 1)) .nil

/-- The process that the change callback spawns. -/
def c4Spawnee : Proc := .seq (.logResume 77) .nil

/-- A change callback that enqueues a process into the current event list
(as the `CallbackLoop` wrappers do). -/
def c4Callback : Proc := .seqChild c4Spawnee .nil

/-- An instant in which nothing waited on `comb_stable`, `comb_read` holds
the writer, and signal 5 has a registered change callback. -/
def c4State : SimState :=
  { slot := { comb_read := .queue [.iproc c4Writer] },
    rtl := { callbacks := [(5, c4Callback)] } }

/-- `c4State` after its `write_only` stage: `comb_read` is `DONE`,
`comb_stable` is still `None`, and the signal write is newer than the
back-end snapshot. -/
def c4Mid : SimState := outState (writeOnlyStage 8 8 3 c4State).1

/-- C4 (code bug): in the `comb_stable` stage the lazy-allocation check at
`src/pycocotb/hdlSimulator.py` line 234 tests `time_slot.comb_read` — which
is always `DONE` there (line 228) — instead of `comb_stable`.  Hence when
an `eval()` of this stage produces a pending callback and nothing ever
waited on `comb_stable`, `_current_event_list` becomes `None` and the
callback's enqueue crashes with an `AttributeError` instead of landing in a
lazily allocated `comb_stable`.  The same stage with the check the spec
describes (testing `comb_stable`, as the parallel `mem_stable` block at
lines 246-249 does) runs the callback-spawned process from `comb_stable`
and seals it. -/
theorem comb_stable_lazy_alloc_bug :
    (writeOnlyStage 8 8 3 c4State).1 = .ok c4Mid ∧
    outErr (combStableStage 8 8 3 c4Mid).1 = some .attrErrorNone ∧
    (combStableStageSpec 8 8 3 c4Mid).1 =
      .ok (outState (combStableStageSpec 8 8 3 c4Mid).1) ∧
    plogTags (combStableStageSpec 8 8 3 c4Mid).2 = [77] ∧
    (outState (combStableStageSpec 8 8 3 c4Mid).1).slot.comb_stable = .done := by
  exact ⟨rfl, rfl, rfl, rfl, rfl⟩

/-! ## C5: enqueue into a done phase -/

/-- A state between drains: `_current_event_list` is `None`, `write_only`
and `comb_read` already sealed. -/
def c5StA : SimState :=
  { curRef := .cnone, slot := { write_only := .done, comb_read := .done } }

/-- A different such state (different sealed slot, different back-end
time). -/
def c5StB : SimState :=
  { curRef := .cnone, slot := { write_only := .done }, rtl := { time := 9 } }

/-- A state whose calendar holds a future slot with a sealed
`write_only`. -/
def c5StC : SimState :=
  { cal := [(7, { write_only := .done })] }

/-- Counterexample for C5: enqueueing into a done phase via
`_schedule_proc_now` raises a payload-free `AttributeError` (the
`'NoneType' object has no attribute 'append'` of
`src/pycocotb/hdlSimulator.py` line 269), not a `PhaseClosedError` carrying
`(now, phase, item)`: two attempts in different states with different items
raise the identical error value, and that value is not of the
`phaseClosed` shape. -/
theorem phase_closed_counterexample :
    schedProcNow (.iproc .nil) c5StA = .err .attrErrorNone c5StA ∧
    schedProcNow (.ievent 4) c5StB = .err .attrErrorNone c5StB ∧
    outErr (schedProcNow (.iproc .nil) c5StA) =
      outErr (schedProcNow (.ievent 4) c5StB) ∧
    SimError.attrErrorNone ≠ .phaseClosed 0 .writeOnly (.iproc .nil) := by
  exact ⟨rfl, rfl, rfl, by decide⟩

/-- C5 as amended: every attempt to enqueue an item into a sealed or
inactive phase fails — the item is never silently dropped — but with a
payload-free `AttributeError` (append on `None` or on the `DONE` sentinel)
whose diagnostic carries none of `(now, phase, item)`; this holds both for
`_schedule_proc_now` (whose current event list is `None` once the active
phase was sealed) and for `_schedule_proc` on a slot whose `write_only` is
`DONE`. -/
theorem phase_closed_amended :
    (∀ (it : SimItem) (st : SimState), st.curRef = .cnone →
      schedProcNow it st = .err .attrErrorNone st) ∧
    (∀ (it : SimItem) (st : SimState), st.curRef = .cdone →
      schedProcNow it st = .err .attrErrorDone st) ∧
    (∀ (now time : Nat) (it : SimItem) (st : SimState) (ts : SimTimeSlot),
      time ≠ now → calLookup st.cal time = some ts →
      ts.write_only = .done →
      schedProc now time it st = .err .attrErrorDone st) := by
  refine ⟨?_, ?_, ?_⟩
  · intro it st h
    unfold schedProcNow
    rw [h]
  · intro it st h
    unfold schedProcNow
    rw [h]
  · intro now time it st ts ht hl hw
    unfold schedProc
    rw [if_neg ht, hl]
    simp only [hw]

/-- Witness for C5's amended statement. -/
theorem phase_closed_amended_witness :
    schedProcNow (.ievent 2) c5StA = .err .attrErrorNone c5StA ∧
    schedProc 0 7 (.iproc .nil) c5StC = .err .attrErrorDone c5StC := by
  exact ⟨phase_closed_amended.1 (.ievent 2) c5StA rfl,
    phase_closed_amended.2.2 0 7 (.iproc .nil) c5StC { write_only := .done }
      (by decide) rfl rfl⟩

/-! ## C8: unknown yielded values -/

/-- Counterexample for C8: an unknown yielded value makes `_run_process`
raise `ValueError(ev)` (`src/pycocotb/hdlSimulator.py` line 128) carrying
only the yielded value: two runs at different times, of different
processes, in different states raise the identical error value, so the
diagnostic includes neither `now` nor the identity of the offending
process. -/
theorem invalid_trigger_counterexample :
    runProcess 3 (.seq (.badYield 5) .nil) c5StA =
      (.err (.valueError 5) c5StA, [.resume 3]) ∧
    runProcess 7 (.seq (.badYield 5) (.seq (.logResume 1) .nil)) c5StB =
      (.err (.valueError 5) c5StB, [.resume 7]) ∧
    outErr (runProcess 3 (.seq (.badYield 5) .nil) c5StA).1 =
      outErr (runProcess 7 (.seq (.badYield 5) (.seq (.logResume 1) .nil))
        c5StB).1 := by
  exact ⟨rfl, rfl, rfl⟩

/-- C8 as amended: when a process yields a value that is neither a
recognised trigger, an `Event`, nor a child process, the runner aborts the
simulation with `ValueError` carrying exactly the yielded value (and not
`now` or the process identity). -/
theorem invalid_trigger_amended (now v : Nat) (k : Proc) (st : SimState) :
    runProcess now (.seq (.badYield v) k) st =
      (.err (.valueError v) st, [.resume now]) := by
  simp [runProcess, runProcessGo]

/-! ## C6: event waiter order -/

/-- A waiter process that only records its tag when resumed. -/
def c6Waiter (tag : Nat) : Proc := .seq (.logResume tag) .nil

/-- A process that fires event 0 (spec section 4.4: the firing lands in the
currently active phase-queue). -/
def c6Firer : Proc := .seq (.fireEvent 0) .nil

/-- The S6 scenario: processes A, B, C (tags 1, 2, 3) wait on event 0 in
that order; a fourth process fires it from the `comb_stable` queue;
`mem_stable` is present so that its drain marker appears in the trace. -/
def c6State : SimState :=
  { slot := { comb_stable := .queue [.iproc c6Firer],
              mem_stable := .queue [] },
    events := [(0, [c6Waiter 1, c6Waiter 2, c6Waiter 3])] }

theorem runWaiters_log (now : Nat) (tags : List Nat) :
    ∀ st : SimState, runWaiters now (tags.map c6Waiter) st =
      (.ok st, tags.flatMap fun g => [.resume now, .plog now g]) := by
  induction tags with
  | nil => intro st; simp [runWaiters]
  | cons g rest ih =>
    intro st
    have h1 : runProcess now (c6Waiter g) st =
        (.ok st, [.resume now, .plog now g]) := by
      simp [runProcess, runProcessGo, c6Waiter]
    simp only [List.map_cons, runWaiters, h1, andThen_okL, ih,
      List.flatMap_cons]

theorem plogTags_pairs (now : Nat) (tags : List Nat) :
    plogTags (tags.flatMap fun g =>
      [TraceEvent.resume now, TraceEvent.plog now g]) = tags := by
  induction tags with
  | nil => simp [plogTags]
  | cons g rest ih =>
    simp only [List.flatMap_cons, plogTags, List.filterMap_append] at ih ⊢
    simp [ih]

/-- C6: when an `Event` with waiters W1..Wn (in append order) is fired, the
waiters are run from the currently active phase-queue in exactly that
append order within the current phase, before any later phase of the same
instant begins.  Formally: (1) for every waiter list, expanding the fired
event runs the waiters in list order (their log is exactly the tag list);
(2) in the concrete S6 instant — three waiters, a firer in `comb_stable` —
the instant completes, the waiters' logs appear in order 1, 2, 3, and all
of them appear before the `mem_stable` drain begins. -/
theorem event_waiters_fifo :
    (∀ (tags : List Nat) (st : SimState),
        evRead st.events 0 = tags.map c6Waiter →
        plogTags (runItem 0 (.ievent 0) st).2 = tags) ∧
    ((processInstant 8 8 0 c6State).1 =
        .ok (outState (processInstant 8 8 0 c6State).1) ∧
      plogTags (processInstant 8 8 0 c6State).2 = [1, 2, 3] ∧
      plogTags ((processInstant 8 8 0 c6State).2.takeWhile
        fun e => e ≠ .phaseDrain 0 .memStable) = [1, 2, 3]) := by
  constructor
  · intro tags st hw
    simp only [runItem, hw, runWaiters_log]
    exact plogTags_pairs 0 tags
  · exact ⟨rfl, rfl, rfl⟩

/-- Witness for C6's general part at a concrete two-waiter event. -/
theorem event_waiters_fifo_witness :
    plogTags (runItem 0 (.ievent 0)
      { events := [(0, [c6Waiter 4, c6Waiter 5])] }).2 = [4, 5] := by
  exact event_waiters_fifo.1 [4, 5]
    { events := [(0, [c6Waiter 4, c6Waiter 5])] } rfl

/-! ## C7: finalize on exit -/

/-- Counterexample for C7: `run(until=0)` from `now = 0` takes the early
return at `src/pycocotb/hdlSimulator.py` lines 172-173 — an ordinary
return of `run` — without ever invoking `finalize()`. -/
theorem finalize_counterexample :
    (run 8 8 8 0 0 [] {}).res = .finished ∧
    (run 8 8 8 0 0 [] {}).finalizeCount = 0 := by
  exact ⟨rfl, rfl⟩

/-- C7 as amended: on every exit from the main loop — clean
`StopSimulation` termination or a fatal error — `finalize()` has been
invoked exactly once by the time `run` returns or re-raises; only the
early return when `until == self.now` (and the failed `until >= self.now`
assertion) exit `run` without invoking `finalize()`. -/
theorem finalize_on_loop_exit (fuel fuelI dfuel now bound : Nat)
    (extra : List Proc) (st : SimState) (h : now < bound)
    (hres : (run fuel fuelI dfuel now bound extra st).res ≠ .fuelOut) :
    (run fuel fuelI dfuel now bound extra st).finalizeCount = 1 := by
  have hn1 : ¬ bound < now := by omega
  have hn2 : ¬ bound = now := by omega
  simp only [run, if_neg hn1, if_neg hn2] at hres ⊢
  split
  all_goals
    first
    | rfl
    | (rename_i st2 heq
       rw [heq] at hres
       simp at hres)

/-- Witness for C7's amended statement. -/
theorem finalize_on_loop_exit_witness :
    (run 64 64 64 0 5 [] {}).finalizeCount = 1 := by
  exact finalize_on_loop_exit 64 64 64 0 5 [] {} (by omega) (by decide)

/-! ## C2: monotonic time -/

theorem calPop_min (cal : SimCalendar)
    (hs : List.Chain' (fun a b => a.1 < b.1) cal)
    (x : Nat × SimTimeSlot) (rest : SimCalendar)
    (hp : calPop cal = some (x, rest)) :
    ∀ y ∈ cal, x.1 ≤ y.1 := by
  cases cal with
  | nil => simp [calPop] at hp
  | cons hd t =>
    simp only [calPop, Option.some_inj] at hp
    have hx : hd = x := congrArg Prod.fst hp
    subst hx
    intro y hy
    rcases List.mem_cons.1 hy with hy1 | hy2
    · subst hy1; exact le_refl _
    · haveI : IsTrans (Nat × SimTimeSlot) (fun a b => a.1 < b.1) :=
        ⟨fun _ _ _ h1 h2 => lt_trans h1 h2⟩
      have hpw := List.chain'_iff_pairwise.1 hs
      exact le_of_lt ((List.pairwise_cons.1 hpw).1 y hy2)

theorem runLoop_instants_ge (fuel : Nat) :
    ∀ (fuelI dfuel now : Nat) (st : SimState),
      ∀ t ∈ (runLoop fuel fuelI dfuel now st).instants, now ≤ t := by
  induction fuel with
  | zero =>
    intro fuelI dfuel now st t ht
    simp [runLoop] at ht
  | succ fuel ih =>
    intro fuelI dfuel now st t ht
    simp only [runLoop] at ht
    cases hp : calPop st.cal with
    | none => simp [hp] at ht
    | some pr =>
      obtain ⟨⟨tt, ts⟩, rest⟩ := pr
      simp only [hp] at ht
      by_cases hlt : tt < now
      · rw [if_pos hlt] at ht
        simp at ht
      · rw [if_neg hlt] at ht
        have hnow : now ≤ tt := Nat.le_of_not_lt hlt
        split at ht
        · rename_i st3 tr heq
          simp only [List.mem_cons] at ht
          rcases ht with rfl | ht2
          · exact hnow
          · exact le_trans hnow (ih fuelI dfuel tt st3 t ht2)
        · rename_i e st3 tr heq
          simp only [List.mem_singleton] at ht
          subst ht
          exact hnow
        · rename_i st3 tr heq
          simp only [List.mem_singleton] at ht
          subst ht
          exact hnow

theorem runLoop_chain (fuel : Nat) :
    ∀ (fuelI dfuel now : Nat) (st : SimState),
      List.Chain' (fun a b : Nat => a = b ∨ a < b)
        (now :: (runLoop fuel fuelI dfuel now st).instants) := by
  induction fuel with
  | zero =>
    intro fuelI dfuel now st
    simp [runLoop]
  | succ fuel ih =>
    intro fuelI dfuel now st
    simp only [runLoop]
    cases hp : calPop st.cal with
    | none => simp [hp]
    | some pr =>
      obtain ⟨⟨tt, ts⟩, rest⟩ := pr
      simp only [hp]
      by_cases hlt : tt < now
      · rw [if_pos hlt]
        simp
      · rw [if_neg hlt]
        have hnow : now = tt ∨ now < tt :=
          (Nat.le_of_not_lt hlt).eq_or_lt
        split
        · rename_i st3 tr heq
          exact (ih fuelI dfuel tt st3).cons hnow
        · rename_i e st3 tr heq
          exact List.chain'_pair.2 hnow
        · rename_i st3 tr heq
          exact List.chain'_pair.2 hnow

/-- C2: the calendar's pop always returns the entry with the smallest
time (for the sorted calendars that `SortedDict` maintains), and across
any run of the main loop the sequence of `now` values observed at the
start of each processed instant — starting from the entry `now` — is
non-decreasing and strictly increasing between distinct instants (each
adjacent pair is equal or strictly increasing): the loop's assertion
`now >= self.now` aborts before entering any instant that would move time
backwards. -/
theorem monotonic_now :
    (∀ cal : SimCalendar, List.Chain' (fun a b => a.1 < b.1) cal →
      ∀ x rest, calPop cal = some (x, rest) → ∀ y ∈ cal, x.1 ≤ y.1) ∧
    (∀ fuel fuelI dfuel now (st : SimState),
      List.Chain' (fun a b : Nat => a = b ∨ a < b)
        (now :: (runLoop fuel fuelI dfuel now st).instants)) := by
  exact ⟨fun cal hs x rest hp => calPop_min cal hs x rest hp,
    fun fuel fuelI dfuel now st => runLoop_chain fuel fuelI dfuel now st⟩

/-- Witness for C2 at a concrete sorted calendar and a concrete run. -/
theorem monotonic_now_witness :
    (1 : Nat) ≤ 1 ∧
    List.Chain' (fun a b : Nat => a = b ∨ a < b)
      (0 :: (runLoop 3 4 5 0 {}).instants) := by
  constructor
  · exact monotonic_now.1 [(1, {})] (by simp) (1, {}) [] rfl (1, {}) (by simp)
  · exact monotonic_now.2 3 4 5 0 {}
